import Mathlib

/-!
Verification of the minimum-redundancy codeword-length calculator in
`src/c/inplace.c` (Moffat and Katajainen, in-place Huffman code length
computation), together with the validation logic of its `main` driver.

The C array `long long A[]` is modelled as a total function `Int → Int`
(indices and cell values are mathematical integers standing for `long long`;
the claims under verification never depend on 64-bit overflow).  In-place
updates become functional updates.  The three passes of
`calculate_minimum_redundancy` are translated loop by loop; the unbounded
`while (avbl > 0)` loop of pass 3 is given an explicit fuel parameter, set to
`n` by the top-level function, and the termination theorem (claim C5) shows
that this fuel is sufficient: any larger fuel computes the same result.
-/

namespace Inplace

/-- Functional update of an `Int`-indexed array: `upd A i v` is the array `A`
with cell `i` overwritten by `v`. -/
def upd (A : Int → Int) (i v : Int) : Int → Int :=
  fun j => if j = i then v else A j

@[simp] theorem upd_self (A : Int → Int) (i v : Int) : upd A i v i = v := by
  simp [upd]

theorem upd_ne (A : Int → Int) (i v j : Int) (h : j ≠ i) : upd A i v j = A j := by
  simp [upd, h]

/-- State of pass 1 of `calculate_minimum_redundancy`: the working array `A`
together with the two consumption cursors `root` (next unused internal node)
and `leaf` (next unused leaf).  In the C source the cursors are `long long`
variables, but during pass 1 they are non-negative counters (they start at 0
and 2 and are only ever incremented), so they are modelled as `Nat`. -/
structure P1 where
  A : Int → Int
  root : Nat
  leaf : Nat

/-- First selection of one pass-1 iteration, from
`if (leaf>=n || A[root]<A[leaf]) { A[next] = A[root]; A[root++] = next; }
else A[next] = A[leaf++];` in the C source.  `next` is the slot receiving the
internal node built by this iteration. -/
def sel1 (n : Nat) (s : P1) (next : Nat) : P1 :=
  if n ≤ s.leaf ∨ s.A s.root < s.A s.leaf then
    { A := upd (upd s.A next (s.A s.root)) s.root next
      root := s.root + 1
      leaf := s.leaf }
  else
    { A := upd s.A next (s.A s.leaf)
      root := s.root
      leaf := s.leaf + 1 }

/-- Second selection of one pass-1 iteration, from
`if (leaf>=n || (root<next && A[root]<A[leaf])) { A[next] += A[root];
A[root++] = next; } else A[next] += A[leaf++];` in the C source. -/
def sel2 (n : Nat) (s : P1) (next : Nat) : P1 :=
  if n ≤ s.leaf ∨ (s.root < next ∧ s.A s.root < s.A s.leaf) then
    { A := upd (upd s.A next (s.A next + s.A s.root)) s.root next
      root := s.root + 1
      leaf := s.leaf }
  else
    { A := upd s.A next (s.A next + s.A s.leaf)
      root := s.root
      leaf := s.leaf + 1 }

/-- One full iteration of the pass-1 loop body (both selections). -/
def p1step (n : Nat) (s : P1) (next : Nat) : P1 :=
  sel2 n (sel1 n s next) next

/-- Initial pass-1 state, from `A[0] += A[1]; root = 0; leaf = 2;`. -/
def p1init (F : Int → Int) : P1 :=
  { A := upd F 0 (F 0 + F 1), root := 0, leaf := 2 }

/-- Pass-1 state after the loop iterations `next = 1, …, m` have run
(`m ≤ n - 2`; the full pass runs them for `next = 1, …, n-2`). -/
def p1state (F : Int → Int) (n m : Nat) : P1 :=
  (List.range' 1 m).foldl (p1step n) (p1init F)

/-- Weight of internal node `m`: the value held by slot `m` right after the
iteration that created it (slot 0 is created by the initialisation). -/
def Wgt (F : Int → Int) (n m : Nat) : Int :=
  (p1state F n m).A m

/-- Pass 2, from `A[n-2] = 0; for (next=n-3; next>=0; next--)
A[next] = A[A[next]]+1;`, run here over the tail `next = n-3, …, k`. -/
def p2part (A : Int → Int) (n k : Nat) : Int → Int :=
  ((List.range' k (n - 2 - k)).reverse).foldl
    (fun B (j : Nat) => upd B (j : Int) (B (B (j : Int)) + 1))
    (upd A ((n : Int) - 2) 0)

/-- Full pass 2. -/
def pass2 (A : Int → Int) (n : Nat) : Int → Int :=
  p2part A n 0

/-- The inner scan `while (root>=0 && A[root]==dpth) { used++; root--; }` of
pass 3.  The first `Nat` argument is `root + 1`, so that the recursion is
structural; the value `0` encodes the terminated cursor `root = -1`. -/
def scanUsed (A : Int → Int) (dpth : Int) : Nat → Nat → Nat × Nat
  | 0, used => (0, used)
  | r + 1, used =>
    if A (r : Int) = dpth then scanUsed A dpth r (used + 1) else (r + 1, used)

/-- Wrapper of `scanUsed` taking the `root` cursor as an integer, as in the C
source, where it runs down to `-1`. -/
def scanUsedI (A : Int → Int) (dpth root : Int) (used : Nat) : Int × Nat :=
  let p := scanUsed A dpth (root + 1).toNat used
  ((p.1 : Int) - 1, p.2)

/-- The inner write loop `while (avbl>used) { A[next--] = dpth; avbl--; }` of
pass 3, writing `k = avbl - used` cells. -/
def writeLeaves (A : Int → Int) (dpth next : Int) : Nat → (Int → Int) × Int
  | 0 => (A, next)
  | k + 1 => writeLeaves (upd A next dpth) dpth (next - 1) k

/-- The outer pass-3 loop `while (avbl>0) { … }`, with explicit fuel.  Each
round scans the internal nodes of the current depth, emits the leaves of that
depth, and doubles the available slot count. -/
def pass3Loop : Nat → (Int → Int) → Nat → Nat → Int → Int → (Int → Int)
  | 0, A, _, _, _, _ => A
  | fuel + 1, A, avbl, dpth, root, next =>
    if avbl = 0 then A
    else
      let s := scanUsedI A (dpth : Int) root 0
      let w := writeLeaves A (dpth : Int) next (avbl - s.2)
      pass3Loop fuel w.1 (2 * s.2) (dpth + 1) s.1 w.2

/-- The in-place minimum-redundancy code length calculator
`calculate_minimum_redundancy` of `src/c/inplace.c`.  Pass 3 is run with fuel
`n`, which the termination theorem shows to be sufficient. -/
def calculate_minimum_redundancy (F : Int → Int) (n : Nat) : Int → Int :=
  if n = 0 then F
  else if n = 1 then upd F 0 0
  else
    pass3Loop n (pass2 (p1state F n (n - 2)).A n) 1 0 ((n : Int) - 2) ((n : Int) - 1)

/-- View of a frequency list as an `Int`-indexed array (cells outside the list
are irrelevant to the calculator and read as 0). -/
def ofList (l : List Int) : Int → Int :=
  fun i => if 0 ≤ i ∧ i < (l.length : Int) then l.getD i.toNat 0 else 0

/-- List-level interface of the calculator. -/
def listCMR (l : List Int) : List Int :=
  (List.range l.length).map
    (fun i => calculate_minimum_redundancy (ofList l) l.length (i : Int))

/-- The validity hypothesis of the calculator: the first `n` cells are
non-negative and non-decreasing. -/
def ValidFreqs (F : Int → Int) (n : Nat) : Prop :=
  (∀ i : Nat, i < n → 0 ≤ F i) ∧ (∀ i : Nat, i + 1 < n → F i ≤ F (i + 1))

/-- The working array at the end of pass 1 (parent pointers in slots
`0 … n-3`, the total weight in slot `n-2`, untouched cells above). -/
def ptrArr (F : Int → Int) (n : Nat) : Int → Int :=
  (p1state F n (n - 2)).A

/-- The working array at the end of pass 2 (internal-node depths in slots
`0 … n-2`). -/
def depthArr (F : Int → Int) (n : Nat) : Int → Int :=
  pass2 (ptrArr F n) n

/-- Number of internal-node slots (among `0 … n-2`) whose pass-2 depth is at
least `d`.  Because depths are non-increasing in the slot index, these slots
are exactly `0 … Tcnt - 1`. -/
def Tcnt (B : Int → Int) (n : Nat) (d : Nat) : Nat :=
  ((Finset.range (n - 1)).filter (fun j : Nat => (d : Int) ≤ B (j : Int))).card

/-- Sum of the Kraft weights `2 ^ (-A j)` of the cells strictly above
position `a` (and below `n`). -/
def wsum (A : Int → Int) (n : Nat) (a : Int) : ℚ :=
  ∑ j in Finset.range n, if a < (j : Int) then (2 : ℚ) ^ (-(A (j : Int))) else 0

/-- Loop invariant of the outer pass-3 loop, at the top of the round that
processes depth `dpth`, for working array `A` and counters
`avbl, root, next`.  `B` is the pass-2 depth array.  Cells up to `root`
still hold depths; cells above `next` hold already-emitted leaf lengths,
which are positive, below `dpth`, and non-increasing in the index; the
emitted Kraft mass plus the mass `avbl · 2 ^ (-dpth)` of the open slots is
exactly 1. -/
structure Inv3 (n : Nat) (B : Int → Int) (A : Int → Int) (avbl dpth : Nat)
    (root next : Int) : Prop where
  hroot : root = (Tcnt B n dpth : Int) - 1
  hnext : next = root + (avbl : Int)
  hnn : next ≤ (n : Int) - 1
  hBA : ∀ j : Int, 0 ≤ j → j ≤ root → A j = B j
  hw1 : ∀ j : Int, next < j → j ≤ (n : Int) - 1 → 1 ≤ A j ∧ A j ≤ (dpth : Int) - 1
  hw2 : ∀ j k : Int, next < j → j ≤ k → k ≤ (n : Int) - 1 → A k ≤ A j
  hkraft : wsum A n next + (avbl : ℚ) * (2 : ℚ) ^ (-(dpth : Int)) = 1
  havbl : Tcnt B n dpth - Tcnt B n (dpth + 1) ≤ avbl
  hd0 : dpth = 0 → avbl = 1

/-- The three result properties of pass 3 established by the run lemma:
positive lengths, lengths non-increasing in the slot index, and Kraft mass
exactly 1. -/
def ResultP (n : Nat) (R : Int → Int) : Prop :=
  (∀ j : Nat, j < n → 1 ≤ R (j : Int)) ∧
  (∀ j k : Nat, j ≤ k → k < n → R (k : Int) ≤ R (j : Int)) ∧
  wsum R n (-1) = 1

/-- Loop invariant of pass 1, for the state `s = p1state F n m` reached after
iterations `next = 1, …, m`.  Slots left of `root` hold parent pointers
(strictly above their own index, at most `m`, non-decreasing, and no value
thrice); slots from `root` to `m` hold the weights of the live internal
nodes; slots above `m` are untouched.  The weight sequence is non-decreasing
and every live candidate is at least half of the newest weight. -/
structure Inv1 (F : Int → Int) (n m : Nat) (s : P1) : Prop where
  hrl : s.root + s.leaf = 2 * m + 2
  hleaf : s.leaf ≤ n
  hroot : s.root ≤ m
  hptr : ∀ j : Nat, j < s.root → (j : Int) < s.A j ∧ s.A j ≤ (m : Int)
  hmono : ∀ j : Nat, j + 1 < s.root → s.A j ≤ s.A (j + 1)
  hmult : ∀ j : Nat, j + 2 < s.root → s.A j < s.A (j + 2)
  hact : ∀ j : Nat, s.root ≤ j → j ≤ m → s.A j = Wgt F n j
  hut : ∀ j : Int, (m : Int) < j → s.A j = F j
  hwmono : ∀ j : Nat, j < m → Wgt F n j ≤ Wgt F n (j + 1)
  hhalfI : ∀ j : Nat, s.root ≤ j → j ≤ m → Wgt F n m ≤ 2 * Wgt F n j
  hhalfL : ∀ j : Nat, s.leaf ≤ j → j < n → Wgt F n m ≤ 2 * F (j : Int)
  hwpos : 0 ≤ Wgt F n m

/-- Intermediate invariant holding between the two selections of iteration
`next = m + 1`, for the state `t = sel1 n (p1state F n m) (m + 1)`.  Slot
`m + 1` holds the first selected item. -/
structure Mid1 (F : Int → Int) (n m : Nat) (t : P1) : Prop where
  hrl : t.root + t.leaf = 2 * m + 3
  hleaf : t.leaf ≤ n
  hroot : t.root ≤ m + 1
  hptr : ∀ j : Nat, j < t.root → (j : Int) < t.A j ∧ t.A j ≤ (m : Int) + 1
  hptrOld : ∀ j : Nat, j + 1 < t.root → t.A j ≤ (m : Int)
  hmono : ∀ j : Nat, j + 1 < t.root → t.A j ≤ t.A (j + 1)
  hmult : ∀ j : Nat, j + 2 < t.root → t.A j < t.A (j + 2)
  hact : ∀ j : Nat, t.root ≤ j → j ≤ m → t.A j = Wgt F n j
  hut : ∀ j : Int, (m : Int) + 1 < j → t.A j = F j
  hwmono : ∀ j : Nat, j < m → Wgt F n j ≤ Wgt F n (j + 1)
  hhalfI : ∀ j : Nat, t.root ≤ j → j ≤ m → Wgt F n m ≤ 2 * Wgt F n j
  hhalfL : ∀ j : Nat, t.leaf ≤ j → j < n → Wgt F n m ≤ 2 * F (j : Int)
  hhalf : Wgt F n m ≤ 2 * t.A ((m : Int) + 1)
  hpos : 0 ≤ t.A ((m : Int) + 1)
  hminI : ∀ j : Nat, t.root ≤ j → j ≤ m → t.A ((m : Int) + 1) ≤ Wgt F n j
  hminL : ∀ j : Nat, t.leaf ≤ j → j < n → t.A ((m : Int) + 1) ≤ F (j : Int)

/-! ### Model of the `main` driver

`main` reads a declared count `n` and then up to `n` frequency values; a short
stream truncates `n` to the number of values actually read.  It validates the
count, the ordering, and the total, and on success calls the calculator and
prints one line per symbol (when `n ≤ 100`) followed by summary lines.  The
numeric contents of the floating-point summary lines are abstracted into
markers; the condition `ent > 0.0` guarding the inefficiency line is modelled
exactly for streams where it is free of rounding concerns (each term of the
entropy sum is a product or quotient whose sign IEEE arithmetic preserves, a
zero frequency makes `ent` a NaN, and NaN comparisons are false). -/

/-- `#define LIMIT 1000000000`, the maximum value for `n`. -/
def LIMIT : Int := 1000000000

/-- The fatal diagnostics `main` can write to the error stream. -/
inductive ErrKind
  | invalidCount
  | orderingViolation
  | zeroTotal
deriving DecidableEq

/-- One line of standard output: a per-symbol frequency/length line, or one of
the summary lines (whose floating-point payload is abstracted away). -/
inductive OutLine
  | perSymbol (i freq len : Int)
  | entropyLine
  | avgLine
  | ineffLine
deriving DecidableEq

/-- Observable outcome of a run of `main`: exit status, output lines,
diagnostics, and the argument lists passed to the length calculator. -/
structure MainOutcome where
  exitCode : Int
  stdout : List OutLine
  stderr : List ErrKind
  calcCalls : List (List Int)
deriving DecidableEq

/-- The scan of the validation loop from index 1 on: `prev` is the previously
read frequency, and each element is checked by
`A[i] < 0 || (i>0 && A[i-1] > A[i])`. -/
def scanOK : Int → List Int → Bool
  | _, [] => true
  | prev, x :: rest => if x < 0 ∨ prev > x then false else scanOK x rest

/-- The whole validation loop check (the first element is only checked for
negativity). -/
def freqsOK : List Int → Bool
  | [] => true
  | x :: rest => if x < 0 then false else scanOK x rest

/-- Exact model of `ent > 0.0`: all frequencies positive (a zero frequency
yields NaN entropy) and at least one of them below the total. -/
def entPos (vals : List Int) : Bool :=
  vals.all (fun x => 0 < x) && vals.any (fun x => x < vals.sum)

/-- The run of `main` on declared count `n` and a stream of integer values. -/
def mainModel (n : Int) (stream : List Int) : MainOutcome :=
  if n ≤ 0 ∨ LIMIT < n then
    { exitCode := 1, stdout := [], stderr := [ErrKind.invalidCount], calcCalls := [] }
  else
    let vals := stream.take n.toNat
    if freqsOK vals = false then
      { exitCode := 1, stdout := [], stderr := [ErrKind.orderingViolation], calcCalls := [] }
    else if vals.sum ≤ 0 then
      { exitCode := 1, stdout := [], stderr := [ErrKind.zeroTotal], calcCalls := [] }
    else
      let lens := listCMR vals
      { exitCode := 0
        stdout :=
          (if vals.length ≤ 100 then
            (List.range vals.length).map
              (fun i : Nat => OutLine.perSymbol (i : Int) (vals.getD i 0) (lens.getD i 0))
          else []) ++ [OutLine.entropyLine, OutLine.avgLine] ++
          (if entPos vals then [OutLine.ineffLine] else [])
        stderr := []
        calcCalls := [vals] }

/-! ### Basic facts about the validation scan -/

theorem scanOK_sound (l : List Int) : ∀ prev : Int, scanOK prev l = true →
    ∀ j : Nat, j < l.length → 0 ≤ l.getD j 0 ∧ prev ≤ l.getD j 0 := by
  induction l with
  | nil => intro prev _ j hj; simp at hj
  | cons x rest ih =>
    intro prev h j hj
    rw [scanOK] at h
    split at h
    · cases h
    · next hc =>
      push_neg at hc
      cases j with
      | zero => simpa using hc
      | succ k =>
        have := ih x h k (by simpa using hj)
        exact ⟨this.1, le_trans hc.2 this.2⟩

theorem scanOK_mono (l : List Int) : ∀ prev : Int, scanOK prev l = true →
    ∀ i j : Nat, i ≤ j → j < l.length → l.getD i 0 ≤ l.getD j 0 := by
  induction l with
  | nil => intro _ _ _ j _ hj; simp at hj
  | cons x rest ih =>
    intro prev h i j hij hj
    rw [scanOK] at h
    split at h
    · cases h
    · cases i with
      | zero =>
        cases j with
        | zero => simp
        | succ k =>
          have := scanOK_sound rest x h k (by simpa using hj)
          simpa using this.2
      | succ i' =>
        cases j with
        | zero => omega
        | succ k =>
          simpa using ih x h i' k (by omega) (by simpa using hj)

theorem freqsOK_sound (l : List Int) (h : freqsOK l = true) :
    (∀ x ∈ l, 0 ≤ x) ∧
    (∀ i j : Nat, i ≤ j → j < l.length → l.getD i 0 ≤ l.getD j 0) := by
  cases l with
  | nil => exact ⟨by simp, by intro i j _ hj; simp at hj⟩
  | cons x rest =>
    rw [freqsOK] at h
    split at h
    · cases h
    · next hx0 =>
      push_neg at hx0
      have hx : (0:Int) ≤ x := hx0
      constructor
      · intro y hy
        rcases List.mem_cons.mp hy with rfl | hy'
        · exact hx
        · obtain ⟨k, hk, rfl⟩ := List.getElem_of_mem (l := rest) hy'
          have := scanOK_sound rest x h k hk
          rw [List.getD_eq_getElem rest 0 hk] at this
          exact this.1
      · intro i j hij hj
        cases i with
        | zero =>
          cases j with
          | zero => simp
          | succ k =>
            have h1 := scanOK_sound rest x h k (by simpa using hj)
            simpa using h1.2
        | succ i' =>
          cases j with
          | zero => omega
          | succ k =>
            simpa using scanOK_mono rest x h i' k (by omega) (by simpa using hj)

/-! ### Pass 1: the loop invariant -/

theorem p1state_succ (F : Int → Int) (n m : Nat) :
    p1state F n (m + 1) = p1step n (p1state F n m) (m + 1) := by
  unfold p1state
  rw [List.range'_concat, List.foldl_append]
  norm_num
  rw [Nat.add_comm 1 m]

theorem valid_nonneg (F : Int → Int) (n : Nat) (hF : ValidFreqs F n)
    (j : Nat) (hj : j < n) : 0 ≤ F j :=
  hF.1 j hj

theorem valid_mono (F : Int → Int) (n : Nat) (hF : ValidFreqs F n)
    (i j : Nat) (hij : i ≤ j) (hj : j < n) : F i ≤ F j := by
  obtain ⟨k, rfl⟩ : ∃ k, j = i + k := ⟨j - i, by omega⟩
  clear hij
  induction k with
  | zero => exact le_rfl
  | succ k ih =>
    have h1 : F i ≤ F (i + k) := ih (by omega)
    have h2 : F (i + k) ≤ F (i + k + 1) := hF.2 (i + k) (by omega)
    have h3 : ((i + (k + 1) : Nat) : Int) = ((i + k + 1 : Nat) : Int) := by push_cast; ring
    rw [h3]
    exact le_trans h1 h2

theorem wgt_chain (F : Int → Int) (n m : Nat)
    (h : ∀ k : Nat, k < m → Wgt F n k ≤ Wgt F n (k + 1))
    (i j : Nat) (hij : i ≤ j) (hj : j ≤ m) : Wgt F n i ≤ Wgt F n j := by
  obtain ⟨k, rfl⟩ : ∃ k, j = i + k := ⟨j - i, by omega⟩
  clear hij
  induction k with
  | zero => exact le_rfl
  | succ k ih =>
    have h1 : Wgt F n i ≤ Wgt F n (i + k) := ih (by omega)
    have h2 : Wgt F n (i + k) ≤ Wgt F n (i + k + 1) := h (i + k) (by omega)
    have h3 : i + (k + 1) = i + k + 1 := by ring
    rw [h3]
    exact le_trans h1 h2

theorem inv1_base (F : Int → Int) (n : Nat) (hF : ValidFreqs F n) (hn : 2 ≤ n) :
    Inv1 F n 0 (p1state F n 0) := by
  have hW0 : Wgt F n 0 = F 0 + F 1 := by
    show (p1init F).A 0 = F 0 + F 1
    simp [p1init]
  have hF0 : 0 ≤ F 0 := by
    have := valid_nonneg F n hF 0 (by omega)
    simpa using this
  have hF1 : 0 ≤ F 1 := by
    have := valid_nonneg F n hF 1 (by omega)
    simpa using this
  refine ⟨rfl, hn, le_refl 0, ?_, ?_, ?_, ?_, ?_, ?_, ?_, ?_, ?_⟩
  · intro j hj
    simp [p1state, p1init] at hj
  · intro j hj
    simp [p1state, p1init] at hj
  · intro j hj
    simp [p1state, p1init] at hj
  · intro j _ hj
    have : j = 0 := by omega
    subst this
    rfl
  · intro j hj
    show upd F 0 (F 0 + F 1) j = F j
    exact upd_ne _ _ _ _ (by omega)
  · intro j hj
    exact absurd hj (by omega)
  · intro j _ hj
    have : j = 0 := by omega
    subst this
    have hW0' : Wgt F n 0 = F 0 + F 1 := hW0
    omega
  · intro j hj2 hjn
    have hl : (p1state F n 0).leaf = 2 := rfl
    rw [hl] at hj2
    have h0 : F 0 ≤ F j := by
      have := valid_mono F n hF 0 j (by omega) hjn
      simpa using this
    have h1 : F 1 ≤ F j := by
      have := valid_mono F n hF 1 j (by omega) hjn
      simpa using this
    omega
  · omega

theorem upd_eval (A : Int → Int) (i v j : Int) :
    upd A i v j = if j = i then v else A j := rfl

theorem upd2_eval (A : Int → Int) (i1 v1 i2 v2 j : Int) :
    upd (upd A i1 v1) i2 v2 j = if j = i2 then v2 else if j = i1 then v1 else A j := rfl

theorem mid1_of_inv1 (F : Int → Int) (n m : Nat) (hF : ValidFreqs F n)
    (hm : m + 3 ≤ n) (ih : Inv1 F n m (p1state F n m)) :
    Mid1 F n m (sel1 n (p1state F n m) (m + 1)) := by
  set s := p1state F n m with hs
  have hroot := ih.hroot
  have hrl := ih.hrl
  have hleafn := ih.hleaf
  have hleaf2 : m + 2 ≤ s.leaf := by omega
  have hAroot : s.A s.root = Wgt F n s.root := ih.hact s.root (le_refl _) ih.hroot
  have hAleaf : s.A s.leaf = F s.leaf := ih.hut s.leaf (by exact_mod_cast Nat.lt_of_lt_of_le (by omega) hleaf2)
  rw [sel1]
  split
  · -- the root node is consumed first
    next hc =>
    have hcomp : n ≤ s.leaf ∨ Wgt F n s.root < F s.leaf := by
      rcases hc with h | h
      · exact Or.inl h
      · exact Or.inr (by rw [hAroot, hAleaf] at h; exact h)
    refine ⟨by dsimp; omega, by dsimp; omega, by dsimp; omega, ?_, ?_, ?_, ?_, ?_, ?_,
      ih.hwmono, ?_, ?_, ?_, ?_, ?_, ?_⟩
    · -- hptr
      intro j hj
      dsimp at hj ⊢
      rw [upd2_eval]
      by_cases h1 : (j : Int) = s.root
      · rw [if_pos h1]
        constructor <;> omega
      · rw [if_neg h1, if_neg (by omega)]
        have := ih.hptr j (by omega)
        constructor <;> omega
    · -- hptrOld
      intro j hj
      dsimp at hj ⊢
      rw [upd2_eval, if_neg (by omega), if_neg (by omega)]
      have := ih.hptr j (by omega)
      omega
    · -- hmono
      intro j hj
      dsimp at hj ⊢
      rw [upd2_eval, upd2_eval]
      by_cases h1 : (j : Int) + 1 = s.root
      · rw [if_neg (by omega), if_neg (by omega), if_pos (by omega)]
        have := ih.hptr j (by omega)
        omega
      · rw [if_neg (by omega), if_neg (by omega), if_neg (by push_cast; omega),
          if_neg (by omega)]
        have := ih.hmono j (by omega)
        exact_mod_cast this
    · -- hmult
      intro j hj
      dsimp at hj ⊢
      rw [upd2_eval, upd2_eval]
      by_cases h1 : (j : Int) + 2 = s.root
      · rw [if_neg (by omega), if_neg (by omega), if_pos (by push_cast; omega)]
        have := ih.hptr j (by omega)
        omega
      · rw [if_neg (by omega), if_neg (by omega), if_neg (by push_cast; omega),
          if_neg (by omega)]
        have := ih.hmult j (by omega)
        exact_mod_cast this
    · -- hact
      intro j hj1 hj2
      dsimp at hj1 ⊢
      rw [upd2_eval, if_neg (by omega), if_neg (by omega)]
      exact ih.hact j (by omega) hj2
    · -- hut
      intro j hj
      dsimp at hj ⊢
      rw [upd2_eval, if_neg (by omega), if_neg (by omega)]
      exact ih.hut j (by omega)
    · -- hhalfI
      intro j hj1 hj2
      dsimp at hj1
      exact ih.hhalfI j (by omega) hj2
    · -- hhalfL
      intro j hj1 hj2
      dsimp at hj1
      exact ih.hhalfL j hj1 hj2
    · -- hhalf
      dsimp
      rw [upd2_eval, if_neg (by omega), if_pos (by push_cast; omega), hAroot]
      exact ih.hhalfI s.root (le_refl _) ih.hroot
    · -- hpos
      dsimp
      rw [upd2_eval, if_neg (by omega), if_pos (by push_cast; omega), hAroot]
      have h1 := ih.hhalfI s.root (le_refl _) ih.hroot
      have h2 := ih.hwpos
      omega
    · -- hminI
      intro j hj1 hj2
      dsimp at hj1 ⊢
      rw [upd2_eval, if_neg (by omega), if_pos (by push_cast; omega), hAroot]
      exact wgt_chain F n m ih.hwmono s.root j (by omega) hj2
    · -- hminL
      intro j hj1 hj2
      dsimp at hj1 ⊢
      rw [upd2_eval, if_neg (by omega), if_pos (by push_cast; omega), hAroot]
      rcases hcomp with h | h
      · omega
      · have := valid_mono F n hF s.leaf j hj1 hj2
        omega
  · -- the leaf is consumed first
    next hc =>
    push_neg at hc
    obtain ⟨hlfn, hge⟩ := hc
    have hlfn' : s.leaf < n := by omega
    have hge' : F s.leaf ≤ Wgt F n s.root := by rw [hAroot, hAleaf] at hge; exact hge
    refine ⟨by dsimp; omega, by dsimp; omega, by dsimp; omega, ?_, ?_, ?_, ?_, ?_, ?_,
      ih.hwmono, ?_, ?_, ?_, ?_, ?_, ?_⟩
    · -- hptr
      intro j hj
      dsimp at hj ⊢
      rw [upd_eval, if_neg (by omega)]
      have := ih.hptr j hj
      constructor <;> omega
    · -- hptrOld
      intro j hj
      dsimp at hj ⊢
      rw [upd_eval, if_neg (by omega)]
      have := ih.hptr j (by omega)
      omega
    · -- hmono
      intro j hj
      dsimp at hj ⊢
      rw [upd_eval, upd_eval, if_neg (by omega), if_neg (by push_cast; omega)]
      have := ih.hmono j hj
      exact_mod_cast this
    · -- hmult
      intro j hj
      dsimp at hj ⊢
      rw [upd_eval, upd_eval, if_neg (by omega), if_neg (by push_cast; omega)]
      have := ih.hmult j hj
      exact_mod_cast this
    · -- hact
      intro j hj1 hj2
      dsimp at hj1 ⊢
      rw [upd_eval, if_neg (by omega)]
      exact ih.hact j hj1 hj2
    · -- hut
      intro j hj
      dsimp at hj ⊢
      rw [upd_eval, if_neg (by omega)]
      exact ih.hut j (by omega)
    · -- hhalfI
      intro j hj1 hj2
      dsimp at hj1
      exact ih.hhalfI j hj1 hj2
    · -- hhalfL
      intro j hj1 hj2
      dsimp at hj1
      exact ih.hhalfL j (by omega) hj2
    · -- hhalf
      dsimp
      rw [upd_eval, if_pos (by push_cast; omega), hAleaf]
      exact ih.hhalfL s.leaf (le_refl _) hlfn'
    · -- hpos
      dsimp
      rw [upd_eval, if_pos (by push_cast; omega), hAleaf]
      have := valid_nonneg F n hF s.leaf hlfn'
      omega
    · -- hminI
      intro j hj1 hj2
      dsimp at hj1 ⊢
      rw [upd_eval, if_pos (by push_cast; omega), hAleaf]
      have h1 := wgt_chain F n m ih.hwmono s.root j (by omega) hj2
      omega
    · -- hminL
      intro j hj1 hj2
      dsimp at hj1 ⊢
      rw [upd_eval, if_pos (by push_cast; omega), hAleaf]
      exact valid_mono F n hF s.leaf j (by omega) hj2

theorem inv1_succ (F : Int → Int) (n m : Nat) (hF : ValidFreqs F n)
    (hm : m + 3 ≤ n) (ih : Inv1 F n m (p1state F n m)) :
    Inv1 F n (m + 1) (p1state F n (m + 1)) := by
  have mid := mid1_of_inv1 F n m hF hm ih
  set t := sel1 n (p1state F n m) (m + 1) with ht
  have hstep : p1state F n (m + 1) = sel2 n t (m + 1) := by
    rw [p1state_succ]; rfl
  have hWsucc : Wgt F n (m + 1) = (sel2 n t (m + 1)).A ((m : Int) + 1) := by
    show (p1state F n (m + 1)).A ((m + 1 : Nat) : Int) = _
    rw [hstep]
    norm_num
  have htleaf2 : m + 2 ≤ t.leaf := by
    have h1 := mid.hrl
    have h2 := mid.hroot
    omega
  have hAtleaf : t.A t.leaf = F t.leaf :=
    mid.hut t.leaf (by exact_mod_cast Nat.lt_of_lt_of_le (by omega) htleaf2)
  rw [hstep, sel2]
  split
  · -- the second item is the root node
    next hc =>
    have htrm : t.root ≤ m := by
      rcases hc with hle | ⟨hrn, _⟩
      · have h1 := mid.hrl
        omega
      · omega
    have hAtroot : t.A t.root = Wgt F n t.root := mid.hact t.root (le_refl _) htrm
    have hW : Wgt F n (m + 1) = t.A ((m : Int) + 1) + Wgt F n t.root := by
      rw [hWsucc, sel2, if_pos hc]
      dsimp
      rw [upd2_eval, if_neg (by omega), if_pos (by push_cast; omega), ← hAtroot]
      norm_num
    have hbhalf : Wgt F n m ≤ 2 * Wgt F n t.root := mid.hhalfI t.root (le_refl _) htrm
    have hbminL : ∀ j : Nat, t.leaf ≤ j → j < n → Wgt F n t.root ≤ F j := by
      intro j hj1 hj2
      rcases hc with hle | ⟨_, hcmp⟩
      · omega
      · rw [hAtroot, hAtleaf] at hcmp
        have := valid_mono F n hF t.leaf j hj1 hj2
        omega
    refine ⟨by dsimp; have := mid.hrl; omega, by dsimp; exact mid.hleaf,
      by dsimp; omega, ?_, ?_, ?_, ?_, ?_, ?_, ?_, ?_, ?_⟩
    · -- hptr
      intro j hj
      dsimp at hj ⊢
      rw [upd2_eval]
      by_cases h1 : (j : Int) = t.root
      · rw [if_pos h1]
        constructor <;> omega
      · rw [if_neg h1, if_neg (by omega)]
        have := mid.hptr j (by omega)
        constructor <;> omega
    · -- hmono
      intro j hj
      dsimp at hj ⊢
      rw [upd2_eval, upd2_eval]
      by_cases h1 : (j : Int) + 1 = t.root
      · rw [if_neg (by omega), if_neg (by omega), if_pos (by push_cast; omega)]
        have := mid.hptr j (by omega)
        omega
      · rw [if_neg (by omega), if_neg (by omega), if_neg (by push_cast; omega),
          if_neg (by omega)]
        have := mid.hmono j (by omega)
        exact_mod_cast this
    · -- hmult
      intro j hj
      dsimp at hj ⊢
      rw [upd2_eval, upd2_eval]
      by_cases h1 : (j : Int) + 2 = t.root
      · rw [if_neg (by omega), if_neg (by omega), if_pos (by push_cast; omega)]
        have := mid.hptrOld j (by omega)
        omega
      · rw [if_neg (by omega), if_neg (by omega), if_neg (by push_cast; omega),
          if_neg (by omega)]
        have := mid.hmult j (by omega)
        exact_mod_cast this
    · -- hact
      intro j hj1 hj2
      dsimp at hj1 ⊢
      rcases Nat.lt_or_ge j (m + 1) with hlt | hge
      · rw [upd2_eval, if_neg (by omega), if_neg (by omega)]
        exact mid.hact j (by omega) (by omega)
      · have hj : j = m + 1 := by omega
        subst hj
        have hgoal := hW
        rw [hWsucc, sel2, if_pos hc] at hgoal
        dsimp at hgoal
        rw [upd2_eval]
        rw [upd2_eval] at hgoal
        rw [if_neg (by omega), if_pos (by push_cast; omega)]
        rw [if_neg (by omega), if_pos (by push_cast; omega)] at hgoal
        omega
    · -- hut
      intro j hj
      dsimp at hj ⊢
      rw [upd2_eval, if_neg (by omega), if_neg (by push_cast; omega)]
      exact mid.hut j (by omega)
    · -- hwmono
      intro j hj
      rcases Nat.lt_or_ge j m with hlt | hge
      · exact mid.hwmono j hlt
      · have hj' : j = m := by omega
        subst hj'
        have h1 := mid.hhalf
        have h2 := mid.hpos
        have h3 := ih.hwpos
        omega
    · -- hhalfI
      intro j hj1 hj2
      dsimp at hj1
      rcases Nat.lt_or_ge j (m + 1) with hlt | hge
      · have ha := mid.hminI j (by omega) (by omega)
        have hb := wgt_chain F n m mid.hwmono t.root j (by omega) (by omega)
        omega
      · have hj : j = m + 1 := by omega
        subst hj
        have h1 := mid.hpos
        have h2 := mid.hhalf
        have h3 := ih.hwpos
        omega
    · -- hhalfL
      intro j hj1 hj2
      dsimp at hj1
      have ha := mid.hminL j hj1 hj2
      have hb := hbminL j hj1 hj2
      omega
    · -- hwpos
      have h1 := mid.hpos
      have h2 := mid.hhalf
      have h3 := ih.hwpos
      omega
  · -- the second item is a leaf
    next hc =>
    push_neg at hc
    obtain ⟨hlfn, hc2⟩ := hc
    have hW : Wgt F n (m + 1) = t.A ((m : Int) + 1) + F t.leaf := by
      rw [hWsucc, sel2, if_neg (by push_neg; exact ⟨hlfn, hc2⟩)]
      dsimp
      rw [upd_eval, if_pos (by push_cast; omega), ← hAtleaf]
      norm_num
    have hbminI : ∀ j : Nat, t.root ≤ j → j ≤ m → F t.leaf ≤ Wgt F n j := by
      intro j hj1 hj2
      have htrm : t.root ≤ m := by omega
      have hcmp := hc2 (by omega)
      rw [hAtleaf, mid.hact t.root (le_refl _) htrm] at hcmp
      have := wgt_chain F n m mid.hwmono t.root j hj1 hj2
      omega
    have hbhalf : Wgt F n m ≤ 2 * F t.leaf := mid.hhalfL t.leaf (le_refl _) hlfn
    have hbpos : 0 ≤ F t.leaf := valid_nonneg F n hF t.leaf hlfn
    refine ⟨by dsimp; have := mid.hrl; omega, by dsimp; omega,
      by dsimp; have := mid.hroot; omega, ?_, ?_, ?_, ?_, ?_, ?_, ?_, ?_, ?_⟩
    · -- hptr
      intro j hj
      dsimp at hj ⊢
      rw [upd_eval, if_neg (by have := mid.hroot; omega)]
      have := mid.hptr j hj
      constructor <;> omega
    · -- hmono
      intro j hj
      dsimp at hj ⊢
      rw [upd_eval, upd_eval, if_neg (by have := mid.hroot; omega),
        if_neg (by have := mid.hroot; push_cast; omega)]
      exact_mod_cast mid.hmono j hj
    · -- hmult
      intro j hj
      dsimp at hj ⊢
      rw [upd_eval, upd_eval, if_neg (by have := mid.hroot; omega),
        if_neg (by have := mid.hroot; push_cast; omega)]
      exact_mod_cast mid.hmult j hj
    · -- hact
      intro j hj1 hj2
      dsimp at hj1 ⊢
      rcases Nat.lt_or_ge j (m + 1) with hlt | hge
      · rw [upd_eval, if_neg (by omega)]
        exact mid.hact j hj1 (by omega)
      · have hj : j = m + 1 := by omega
        subst hj
        have hgoal := hW
        rw [hWsucc, sel2, if_neg (by push_neg; exact ⟨hlfn, hc2⟩)] at hgoal
        dsimp at hgoal
        rw [upd_eval, if_pos (by push_cast; omega)]
        rw [upd_eval, if_pos (by push_cast; omega)] at hgoal
        omega
    · -- hut
      intro j hj
      dsimp at hj ⊢
      rw [upd_eval, if_neg (by push_cast; omega)]
      exact mid.hut j (by omega)
    · -- hwmono
      intro j hj
      rcases Nat.lt_or_ge j m with hlt | hge
      · exact mid.hwmono j hlt
      · have hj' : j = m := by omega
        subst hj'
        have h1 := mid.hhalf
        omega
    · -- hhalfI
      intro j hj1 hj2
      dsimp at hj1
      rcases Nat.lt_or_ge j (m + 1) with hlt | hge
      · have ha := mid.hminI j hj1 (by omega)
        have hb := hbminI j hj1 (by omega)
        omega
      · have hj : j = m + 1 := by omega
        subst hj
        have h1 := mid.hpos
        omega
    · -- hhalfL
      intro j hj1 hj2
      dsimp at hj1
      have ha := mid.hminL j (by omega) hj2
      have hb := valid_mono F n hF t.leaf j (by omega) hj2
      omega
    · -- hwpos
      have h1 := mid.hpos
      omega

/-- The invariant holds after every prefix of pass 1. -/
theorem inv1_all (F : Int → Int) (n : Nat) (hF : ValidFreqs F n) (hn : 2 ≤ n) :
    ∀ m : Nat, m ≤ n - 2 → Inv1 F n m (p1state F n m) := by
  intro m
  induction m with
  | zero => intro _; exact inv1_base F n hF hn
  | succ k ihk =>
    intro hk
    exact inv1_succ F n k hF (by omega) (ihk (by omega))

/-- At the end of pass 1 every internal node except the root has been
consumed and every leaf has been consumed. -/
theorem pass1_final (F : Int → Int) (n : Nat) (hF : ValidFreqs F n) (hn : 2 ≤ n) :
    (p1state F n (n - 2)).root = n - 2 ∧ (p1state F n (n - 2)).leaf = n := by
  have inv := inv1_all F n hF hn (n - 2) (le_refl _)
  have h1 := inv.hrl
  have h2 := inv.hleaf
  have h3 := inv.hroot
  omega

/-! ### Pass 2: converting parent pointers into depths -/

theorem p2part_top (A : Int → Int) (n k : Nat) (hk : n - 2 ≤ k) :
    p2part A n k = upd A ((n : Int) - 2) 0 := by
  unfold p2part
  rw [Nat.sub_eq_zero_of_le hk]
  rfl

theorem p2part_succ (A : Int → Int) (n k : Nat) (hk : k < n - 2) :
    p2part A n k =
      upd (p2part A n (k + 1)) (k : Int)
        (p2part A n (k + 1) (p2part A n (k + 1) (k : Int)) + 1) := by
  unfold p2part
  have h : n - 2 - k = (n - 2 - (k + 1)) + 1 := by omega
  rw [h, List.range'_succ, List.reverse_cons, List.foldl_append]
  rfl

/-- Final pointer facts delivered by pass 1 (restated on `ptrArr`). -/
theorem ptrArr_facts (F : Int → Int) (n : Nat) (hF : ValidFreqs F n) (hn : 2 ≤ n) :
    (∀ j : Nat, j < n - 2 → (j : Int) < ptrArr F n j ∧ ptrArr F n j ≤ (n : Int) - 2) ∧
    (∀ j : Nat, j + 1 < n - 2 → ptrArr F n j ≤ ptrArr F n (j + 1)) ∧
    (∀ j : Nat, j + 2 < n - 2 → ptrArr F n j < ptrArr F n (j + 2)) := by
  have inv := inv1_all F n hF hn (n - 2) (le_refl _)
  have hr := (pass1_final F n hF hn).1
  simp only [ptrArr]
  refine ⟨?_, ?_, ?_⟩
  · intro j hj
    have := inv.hptr j (by omega)
    exact ⟨this.1, by omega⟩
  · intro j hj
    exact inv.hmono j (by omega)
  · intro j hj
    exact inv.hmult j (by omega)

/-- Characterisation of the pass-2 fold from position `k` on: unprocessed
cells are unchanged, the root slot holds 0, and every processed slot holds
one more than the depth of the slot its original parent pointer names. -/
theorem p2part_char (F : Int → Int) (n : Nat) (hF : ValidFreqs F n) (hn : 2 ≤ n) :
    ∀ d k : Nat, n - 2 - k = d → k ≤ n - 2 →
      (∀ j : Int, j < (k : Int) ∨ ((n : Int) - 2) < j →
        p2part (ptrArr F n) n k j = ptrArr F n j) ∧
      (p2part (ptrArr F n) n k ((n : Int) - 2) = 0) ∧
      (∀ j : Nat, k ≤ j → j + 2 < n →
        p2part (ptrArr F n) n k j =
          p2part (ptrArr F n) n k (ptrArr F n j) + 1) := by
  have hptr := (ptrArr_facts F n hF hn).1
  intro d
  induction d with
  | zero =>
    intro k hdk hk
    have hk' : k = n - 2 := by omega
    subst hk'
    rw [p2part_top (ptrArr F n) n (n - 2) (le_refl _)]
    refine ⟨?_, ?_, ?_⟩
    · intro j hj
      exact upd_ne _ _ _ _ (by omega)
    · exact upd_self _ _ _
    · intro j hj1 hj2
      exact absurd hj1 (by omega)
  | succ d ihd =>
    intro k hdk hk
    have hklt : k < n - 2 := by omega
    obtain ⟨iha, ihb, ihc⟩ := ihd (k + 1) (by omega) (by omega)
    have hAk : p2part (ptrArr F n) n (k + 1) (k : Int) = ptrArr F n k :=
      iha k (by omega)
    have hpk := hptr k (by omega)
    rw [p2part_succ (ptrArr F n) n k hklt]
    refine ⟨?_, ?_, ?_⟩
    · intro j hj
      rw [upd_ne _ _ _ _ (by omega)]
      exact iha j (by omega)
    · rw [upd_ne _ _ _ _ (by omega)]
      exact ihb
    · intro j hj1 hj2
      rcases Nat.eq_or_lt_of_le hj1 with hjk | hjk
      · subst hjk
        rw [upd_self, upd_ne _ _ _ _ (by omega), hAk]
      · have hne : ptrArr F n (j : Int) ≠ (k : Int) := by
          have := hptr j (by omega)
          omega
        rw [upd_ne _ _ _ _ (by omega), upd_ne _ _ _ _ hne]
        exact ihc j (by omega) hj2

/-- Characterisation of the pass-2 output array. -/
theorem depthArr_char (F : Int → Int) (n : Nat) (hF : ValidFreqs F n) (hn : 2 ≤ n) :
    (depthArr F n ((n : Int) - 2) = 0) ∧
    (∀ j : Nat, j + 2 < n →
      depthArr F n j = depthArr F n (ptrArr F n j) + 1) ∧
    (∀ j : Int, j < 0 ∨ (n : Int) - 2 < j → depthArr F n j = ptrArr F n j) := by
  have h := p2part_char F n hF hn (n - 2) 0 (by omega) (by omega)
  have hd : depthArr F n = p2part (ptrArr F n) n 0 := rfl
  refine ⟨by rw [hd]; exact h.2.1, ?_, ?_⟩
  · intro j hj
    rw [hd]
    exact h.2.2 j (by omega) hj
  · intro j hj
    rw [hd]
    refine h.1 j ?_
    rcases hj with h1 | h1
    · exact Or.inl (by omega)
    · exact Or.inr h1

/-- Depth bounds and antitonicity: every internal depth lies between 0 and
`n - 2 - j`, and depths do not increase as the slot index grows. -/
theorem depth_facts (F : Int → Int) (n : Nat) (hF : ValidFreqs F n) (hn : 2 ≤ n) :
    ∀ d : Nat, ∀ j : Nat, n - 2 - j = d → j ≤ n - 2 →
      (0 ≤ depthArr F n j ∧ depthArr F n j ≤ (n : Int) - 2 - j) ∧
      (∀ i : Nat, j ≤ i → i ≤ n - 2 → depthArr F n i ≤ depthArr F n j) := by
  have hchar := depthArr_char F n hF hn
  have hptr := (ptrArr_facts F n hF hn).1
  have hpm := (ptrArr_facts F n hF hn).2.1
  intro d
  induction d using Nat.strong_induction_on with
  | _ d IH =>
    intro j hdj hj
    rcases Nat.eq_or_lt_of_le hj with hje | hjlt
    · -- the root slot
      have hcast : ((j : Nat) : Int) = (n : Int) - 2 := by omega
      have h0 : depthArr F n j = 0 := by rw [hcast]; exact hchar.1
      refine ⟨⟨by omega, by omega⟩, ?_⟩
      intro i hi1 hi2
      have : i = j := by omega
      subst this
      exact le_rfl
    · -- an interior slot with a parent pointer
      have hrec := hchar.2.1 j (by omega)
      have hp := hptr j (by omega)
      have hpcast : (((ptrArr F n j).toNat : Nat) : Int) = ptrArr F n j :=
        Int.toNat_of_nonneg (by omega)
      set p := (ptrArr F n j).toNat with hpdef
      have hpb1 : j + 1 ≤ p := by omega
      have hpb2 : p ≤ n - 2 := by omega
      rw [← hpcast] at hrec
      have IHp := IH (n - 2 - p) (by omega) p rfl (by omega)
      have hbp0 := IHp.1.1
      have hbp1 := IHp.1.2
      refine ⟨⟨by omega, by omega⟩, ?_⟩
      intro i hi1 hi2
      rcases Nat.eq_or_lt_of_le hi1 with hie | hilt
      · subst hie; exact le_rfl
      · have IHj1 := IH (n - 2 - (j + 1)) (by omega) (j + 1) rfl (by omega)
        have h1 : depthArr F n i ≤ depthArr F n ((j : Int) + 1) := IHj1.2 i (by omega) hi2
        have h2 : depthArr F n ((j : Int) + 1) ≤ depthArr F n j := by
          rcases Nat.eq_or_lt_of_le (show j + 1 ≤ n - 2 by omega) with hj1e | hj1lt
          · have h0 : depthArr F n ((j : Int) + 1) = 0 := by
              have hcast1 : (j : Int) + 1 = (n : Int) - 2 := by omega
              rw [hcast1]; exact hchar.1
            omega
          · have hrec1 : depthArr F n ((j : Int) + 1) =
                depthArr F n (ptrArr F n ((j : Int) + 1)) + 1 :=
              hchar.2.1 (j + 1) (by omega)
            have hmono : ptrArr F n (j : Int) ≤ ptrArr F n ((j : Int) + 1) :=
              hpm j (by omega)
            have hp1 : (j : Int) + 1 < ptrArr F n ((j : Int) + 1) ∧
                ptrArr F n ((j : Int) + 1) ≤ (n : Int) - 2 := hptr (j + 1) (by omega)
            have hqcast : (((ptrArr F n ((j : Int) + 1)).toNat : Nat) : Int) =
                ptrArr F n ((j : Int) + 1) := Int.toNat_of_nonneg (by omega)
            set q := (ptrArr F n ((j : Int) + 1)).toNat with hqdef
            rw [← hqcast] at hrec1
            have hqp : depthArr F n q ≤ depthArr F n p := IHp.2 q (by omega) (by omega)
            omega
        omega

/-! ### Counting internal nodes by depth -/

theorem downclosed_card (m : Nat) (p : Nat → Prop) [DecidablePred p]
    (hdc : ∀ i j : Nat, i ≤ j → j < m → p j → p i) :
    ∀ i : Nat, i < m → (p i ↔ i < ((Finset.range m).filter p).card) := by
  intro i him
  constructor
  · intro hpi
    have hsub : Finset.range (i + 1) ⊆ (Finset.range m).filter p := by
      intro x hx
      rw [Finset.mem_range] at hx
      rw [Finset.mem_filter, Finset.mem_range]
      exact ⟨by omega, hdc x i (by omega) him hpi⟩
    have := Finset.card_le_card hsub
    rw [Finset.card_range] at this
    omega
  · intro hcard
    by_contra hpi
    have hsub : (Finset.range m).filter p ⊆ Finset.range i := by
      intro x hx
      rw [Finset.mem_filter, Finset.mem_range] at hx
      rw [Finset.mem_range]
      by_contra hxi
      exact hpi (hdc i x (by omega) hx.1 hx.2)
    have := Finset.card_le_card hsub
    rw [Finset.card_range] at this
    omega

theorem tcnt_char (F : Int → Int) (n : Nat) (hF : ValidFreqs F n) (hn : 2 ≤ n) :
    ∀ d j : Nat, j < n - 1 →
      ((d : Int) ≤ depthArr F n j ↔ j < Tcnt (depthArr F n) n d) := by
  intro d j hj
  refine downclosed_card (n - 1) (fun j : Nat => (d : Int) ≤ depthArr F n j) ?_ j hj
  intro a b hab hb hpb
  have h := (depth_facts F n hF hn (n - 2 - a) a rfl (by omega)).2 b hab (by omega)
  omega

theorem tcnt_le (B : Int → Int) (n d : Nat) : Tcnt B n d ≤ n - 1 := by
  unfold Tcnt
  calc ((Finset.range (n - 1)).filter _).card
      ≤ (Finset.range (n - 1)).card := Finset.card_filter_le _ _
    _ = n - 1 := Finset.card_range _

theorem tcnt_anti (B : Int → Int) (n d : Nat) : Tcnt B n (d + 1) ≤ Tcnt B n d := by
  unfold Tcnt
  apply Finset.card_le_card
  intro x hx
  rw [Finset.mem_filter] at hx ⊢
  refine ⟨hx.1, ?_⟩
  have := hx.2
  omega

theorem tcnt_zero (F : Int → Int) (n : Nat) (hF : ValidFreqs F n) (hn : 2 ≤ n) :
    Tcnt (depthArr F n) n 0 = n - 1 := by
  unfold Tcnt
  rw [Finset.filter_true_of_mem, Finset.card_range]
  intro j hj
  rw [Finset.mem_range] at hj
  have := (depth_facts F n hF hn (n - 2 - j) j rfl (by omega)).1.1
  omega

theorem depth_pos (F : Int → Int) (n : Nat) (hF : ValidFreqs F n) (hn : 2 ≤ n) :
    ∀ j : Nat, j + 2 < n → 1 ≤ depthArr F n j := by
  intro j hj
  have hrec := (depthArr_char F n hF hn).2.1 j hj
  have hp := (ptrArr_facts F n hF hn).1 j (by omega)
  have hpcast : (((ptrArr F n j).toNat : Nat) : Int) = ptrArr F n j :=
    Int.toNat_of_nonneg (by omega)
  rw [← hpcast] at hrec
  have hb := (depth_facts F n hF hn (n - 2 - (ptrArr F n j).toNat)
    ((ptrArr F n j).toNat) rfl (by omega)).1.1
  omega

theorem tcnt_one (F : Int → Int) (n : Nat) (hF : ValidFreqs F n) (hn : 2 ≤ n) :
    Tcnt (depthArr F n) n 1 = n - 2 := by
  unfold Tcnt
  have hset : (Finset.range (n - 1)).filter
      (fun j : Nat => ((1 : Nat) : Int) ≤ depthArr F n (j : Int)) =
      Finset.range (n - 2) := by
    ext j
    rw [Finset.mem_filter, Finset.mem_range, Finset.mem_range]
    constructor
    · rintro ⟨hj, hd⟩
      by_contra hge
      have hje : j = n - 2 := by omega
      have hcast : ((j : Nat) : Int) = (n : Int) - 2 := by omega
      rw [hcast, (depthArr_char F n hF hn).1] at hd
      omega
    · intro hj
      have := depth_pos F n hF hn j (by omega)
      exact ⟨by omega, by omega⟩
  rw [hset, Finset.card_range]

theorem tcnt_top (F : Int → Int) (n : Nat) (hF : ValidFreqs F n) (hn : 2 ≤ n)
    (d : Nat) (hd : n - 1 ≤ d) : Tcnt (depthArr F n) n d = 0 := by
  unfold Tcnt
  rw [Finset.card_eq_zero, Finset.filter_eq_empty_iff]
  intro j hj
  rw [Finset.mem_range] at hj
  have := (depth_facts F n hF hn (n - 2 - j) j rfl (by omega)).1.2
  omega

theorem tcnt_block (F : Int → Int) (n : Nat) (hF : ValidFreqs F n) (hn : 2 ≤ n) :
    ∀ d j : Nat, j < n - 1 →
      (depthArr F n j = (d : Int) ↔
        (Tcnt (depthArr F n) n (d + 1) ≤ j ∧ j < Tcnt (depthArr F n) n d)) := by
  intro d j hj
  have h1 := tcnt_char F n hF hn d j hj
  have h2 := tcnt_char F n hF hn (d + 1) j hj
  have hc : ((d + 1 : Nat) : Int) = (d : Int) + 1 := by push_cast; ring
  rw [hc] at h2
  omega

/-- Two-to-one bound: at most twice as many internal nodes on depth `d + 1`
as on depth `d` (each has its parent on depth `d`, and a parent pointer value
occurs at most twice). -/
theorem tcnt_chain (F : Int → Int) (n : Nat) (hF : ValidFreqs F n) (hn : 2 ≤ n)
    (d : Nat) :
    Tcnt (depthArr F n) n (d + 1) - Tcnt (depthArr F n) n (d + 2) ≤
      2 * (Tcnt (depthArr F n) n d - Tcnt (depthArr F n) n (d + 1)) := by
  have ha1 := tcnt_anti (depthArr F n) n d
  have ha2 := tcnt_anti (depthArr F n) n (d + 1)
  have hle := tcnt_le (depthArr F n) n d
  -- every slot of the depth-(d+1) block points into the depth-d block
  have hblock : ∀ x : Nat, Tcnt (depthArr F n) n (d + 2) ≤ x →
      x < Tcnt (depthArr F n) n (d + 1) →
      (Tcnt (depthArr F n) n (d + 1) : Int) ≤ ptrArr F n x ∧
      ptrArr F n x < (Tcnt (depthArr F n) n d : Int) ∧
      x + 2 < n := by
    intro x hx1 hx2
    have hxn : x < n - 1 := by
      have := tcnt_le (depthArr F n) n (d + 1)
      omega
    have hBx : depthArr F n x = ((d + 1 : Nat) : Int) :=
      (tcnt_block F n hF hn (d + 1) x hxn).2 ⟨hx1, hx2⟩
    have hxn3 : x + 2 < n := by
      rcases Nat.lt_or_ge (x + 2) n with h | h
      · exact h
      · have hxe : x = n - 2 := by omega
        have hcast : ((x : Nat) : Int) = (n : Int) - 2 := by omega
        rw [hcast, (depthArr_char F n hF hn).1] at hBx
        omega
    have hrec := (depthArr_char F n hF hn).2.1 x hxn3
    have hp := (ptrArr_facts F n hF hn).1 x (by omega)
    have hpcast : (((ptrArr F n x).toNat : Nat) : Int) = ptrArr F n x :=
      Int.toNat_of_nonneg (by omega)
    rw [← hpcast] at hrec
    have hBp : depthArr F n ((ptrArr F n x).toNat : Nat) = ((d : Nat) : Int) := by
      have hc : ((d + 1 : Nat) : Int) = (d : Int) + 1 := by push_cast; ring
      omega
    have := (tcnt_block F n hF hn d ((ptrArr F n x).toNat) (by omega)).1 hBp
    omega
  -- chained strictness along even offsets of the depth-(d+1) block
  have hstep : ∀ i : Nat,
      Tcnt (depthArr F n) n (d + 2) + 2 * i < Tcnt (depthArr F n) n (d + 1) →
      (Tcnt (depthArr F n) n (d + 1) : Int) + i ≤
        ptrArr F n ((Tcnt (depthArr F n) n (d + 2) + 2 * i : Nat) : Int) ∧
      ptrArr F n ((Tcnt (depthArr F n) n (d + 2) + 2 * i : Nat) : Int) <
        (Tcnt (depthArr F n) n d : Int) := by
    intro i
    induction i with
    | zero =>
      intro hi
      have hb := hblock (Tcnt (depthArr F n) n (d + 2)) (by omega) (by omega)
      rw [show Tcnt (depthArr F n) n (d + 2) + 2 * 0 =
        Tcnt (depthArr F n) n (d + 2) from by ring]
      exact ⟨by omega, by omega⟩
    | succ i ihi =>
      intro hi
      have ih := ihi (by omega)
      have hb2 := hblock (Tcnt (depthArr F n) n (d + 2) + 2 * (i + 1)) (by omega)
        (by omega)
      have hmult := (ptrArr_facts F n hF hn).2.2
        (Tcnt (depthArr F n) n (d + 2) + 2 * i) (by omega)
      rw [show ((Tcnt (depthArr F n) n (d + 2) + 2 * i : Nat) : Int) + 2 =
        ((Tcnt (depthArr F n) n (d + 2) + 2 * (i + 1) : Nat) : Int) from by
          push_cast; ring] at hmult
      exact ⟨by omega, by omega⟩
  by_contra hcon
  push_neg at hcon
  have hi := hstep (Tcnt (depthArr F n) n d - Tcnt (depthArr F n) n (d + 1))
    (by omega)
  omega

/-- If some depth level is empty, all deeper levels are empty. -/
theorem tcnt_zero_prop (F : Int → Int) (n : Nat) (hF : ValidFreqs F n)
    (hn : 2 ≤ n) :
    ∀ k d : Nat, n - 1 ≤ d + k →
      Tcnt (depthArr F n) n d = Tcnt (depthArr F n) n (d + 1) →
      Tcnt (depthArr F n) n d = 0 := by
  intro k
  induction k with
  | zero =>
    intro d hd _
    exact tcnt_top F n hF hn d (by omega)
  | succ k ihk =>
    intro d hd heq
    rcases Nat.lt_or_ge d (n - 1) with hnd | hnd
    · have hchain := tcnt_chain F n hF hn d
      have ha2 : Tcnt (depthArr F n) n (d + 2) ≤ Tcnt (depthArr F n) n (d + 1) :=
        tcnt_anti (depthArr F n) n (d + 1)
      have h1 : Tcnt (depthArr F n) n (d + 1) = Tcnt (depthArr F n) n (d + 2) := by
        omega
      have h2 := ihk (d + 1) (by omega) h1
      omega
    · exact tcnt_top F n hF hn d (by omega)

/-! ### Pass 3: scanning, writing, and the Kraft mass -/

theorem scanUsed_run (A : Int → Int) (dpth : Int) (stop : Nat) :
    ∀ r1 u : Nat, stop ≤ r1 →
      (∀ j : Nat, stop ≤ j → j < r1 → A j = dpth) →
      (∀ j : Nat, j + 1 = stop → A j ≠ dpth) →
      scanUsed A dpth r1 u = (stop, u + (r1 - stop)) := by
  intro r1
  induction r1 with
  | zero =>
    intro u h1 _ _
    have hs : stop = 0 := by omega
    subst hs
    rfl
  | succ r ihr =>
    intro u hsr hall hstop
    rcases Nat.eq_or_lt_of_le hsr with he | hlt
    · rw [scanUsed, if_neg (hstop r (by omega))]
      rw [← he]
      norm_num
    · rw [scanUsed, if_pos (hall r (by omega) (by omega))]
      rw [ihr (u + 1) (by omega) (fun j hj1 hj2 => hall j hj1 (by omega)) hstop]
      congr 1
      omega

theorem writeLeaves_run (dpth : Int) :
    ∀ (k : Nat) (A : Int → Int) (next : Int),
      (writeLeaves A dpth next k).2 = next - k ∧
      (∀ j : Int, (writeLeaves A dpth next k).1 j =
        if next - k < j ∧ j ≤ next then dpth else A j) := by
  intro k
  induction k with
  | zero =>
    intro A next
    constructor
    · show next = next - 0
      omega
    · intro j
      show A j = if next - 0 < j ∧ j ≤ next then dpth else A j
      rw [if_neg (by omega)]
  | succ k ihk =>
    intro A next
    constructor
    · show (writeLeaves (upd A next dpth) dpth (next - 1) k).2 = next - (k + 1)
      rw [(ihk _ _).1]
      push_cast
      ring
    · intro j
      show (writeLeaves (upd A next dpth) dpth (next - 1) k).1 j = _
      rw [(ihk _ _).2 j]
      by_cases h1 : next - 1 - (k : Int) < j ∧ j ≤ next - 1
      · rw [if_pos h1, if_pos (by push_cast; omega)]
      · rw [if_neg h1]
        by_cases h2 : j = next
        · subst h2
          rw [upd_self, if_pos (by push_cast; omega)]
        · rw [upd_ne _ _ _ _ h2, if_neg (by push_cast at h1 ⊢; omega)]

theorem wsum_empty (A : Int → Int) (n : Nat) (a : Int) (ha : (n : Int) - 1 ≤ a) :
    wsum A n a = 0 := by
  unfold wsum
  apply Finset.sum_eq_zero
  intro j hj
  rw [Finset.mem_range] at hj
  rw [if_neg (by omega)]

theorem wsum_all (A : Int → Int) (n : Nat) :
    wsum A n (-1) = ∑ j in Finset.range n, (2 : ℚ) ^ (-(A (j : Int))) := by
  unfold wsum
  apply Finset.sum_congr rfl
  intro j hj
  rw [if_pos (by omega)]

/-- Writing the constant `d` on the block `(a, b]` adds `(b - a) · 2 ^ (-d)`
to the emitted Kraft mass. -/
theorem wsum_write (A A2 : Int → Int) (n : Nat) (a b : Int) (d : Int)
    (ha : -1 ≤ a) (hab : a ≤ b) (hb : b ≤ (n : Int) - 1)
    (hA2 : ∀ j : Int, A2 j = if a < j ∧ j ≤ b then d else A j) :
    wsum A2 n a = wsum A n b + (((b - a).toNat : Nat) : ℚ) * (2 : ℚ) ^ (-d) := by
  unfold wsum
  have hsplit : ∀ j : Nat, j ∈ Finset.range n →
      (if a < (j : Int) then (2 : ℚ) ^ (-(A2 (j : Int))) else 0) =
      (if b < (j : Int) then (2 : ℚ) ^ (-(A (j : Int))) else 0) +
      (if a < (j : Int) ∧ (j : Int) ≤ b then (2 : ℚ) ^ (-d) else 0) := by
    intro j hj
    rcases Int.lt_or_le a (j : Int) with haj | haj
    · rcases Int.le_or_lt ((j : Int)) b with hjb | hjb
      · rw [if_pos haj, if_neg (by omega), if_pos ⟨haj, hjb⟩, hA2, if_pos ⟨haj, hjb⟩]
        ring
      · rw [if_pos haj, if_pos hjb, if_neg (by omega), hA2, if_neg (by omega)]
        ring
    · rw [if_neg (by omega), if_neg (by omega), if_neg (by omega)]
      ring
  rw [Finset.sum_congr rfl hsplit, Finset.sum_add_distrib]
  congr 1
  rw [← Finset.sum_filter]
  rw [Finset.sum_const]
  have hIco : (Finset.range n).filter
      (fun j : Nat => a < (j : Int) ∧ (j : Int) ≤ b) =
      Finset.Ico (a + 1).toNat (b + 1).toNat := by
    ext x
    rw [Finset.mem_filter, Finset.mem_range, Finset.mem_Ico]
    omega
  rw [hIco, Nat.card_Ico]
  rw [nsmul_eq_mul]
  congr 2
  omega

theorem pass3Loop_zero_avbl (fuel : Nat) (A : Int → Int) (dpth : Nat)
    (root next : Int) : pass3Loop fuel A 0 dpth root next = A := by
  cases fuel with
  | zero => rfl
  | succ f => simp [pass3Loop]

/-- One round of the outer pass-3 loop: the scan consumes exactly the
internal nodes of the current depth, and the writes preserve the invariant at
the next depth. -/
theorem inv3_step (F : Int → Int) (n : Nat) (hF : ValidFreqs F n) (hn : 2 ≤ n)
    (A : Int → Int) (avbl dpth : Nat) (root next : Int)
    (inv : Inv3 n (depthArr F n) A avbl dpth root next) (hav : avbl ≠ 0) :
    scanUsedI A (dpth : Int) root 0 =
      ((Tcnt (depthArr F n) n (dpth + 1) : Int) - 1,
        Tcnt (depthArr F n) n dpth - Tcnt (depthArr F n) n (dpth + 1)) ∧
    Inv3 n (depthArr F n)
      (writeLeaves A (dpth : Int) next
        (avbl - (Tcnt (depthArr F n) n dpth - Tcnt (depthArr F n) n (dpth + 1)))).1
      (2 * (Tcnt (depthArr F n) n dpth - Tcnt (depthArr F n) n (dpth + 1)))
      (dpth + 1) ((Tcnt (depthArr F n) n (dpth + 1) : Int) - 1)
      (writeLeaves A (dpth : Int) next
        (avbl - (Tcnt (depthArr F n) n dpth - Tcnt (depthArr F n) n (dpth + 1)))).2 := by
  have hanti : Tcnt (depthArr F n) n (dpth + 1) ≤ Tcnt (depthArr F n) n dpth :=
    tcnt_anti _ _ _
  have hle : Tcnt (depthArr F n) n dpth ≤ n - 1 := tcnt_le _ _ _
  have hle1 : Tcnt (depthArr F n) n (dpth + 1) ≤ n - 1 := tcnt_le _ _ _
  have hroot := inv.hroot
  have hnext := inv.hnext
  have hnn := inv.hnn
  have hcle := inv.havbl
  have htoNat : (root + 1).toNat = Tcnt (depthArr F n) n dpth := by omega
  have hscan : scanUsed A (dpth : Int) ((root + 1).toNat) 0 =
      (Tcnt (depthArr F n) n (dpth + 1),
        0 + (Tcnt (depthArr F n) n dpth - Tcnt (depthArr F n) n (dpth + 1))) := by
    rw [htoNat]
    apply scanUsed_run
    · exact hanti
    · intro j hj1 hj2
      have hjn : j < n - 1 := by omega
      have hBj : depthArr F n j = ((dpth : Nat) : Int) :=
        (tcnt_block F n hF hn dpth j hjn).2 ⟨hj1, hj2⟩
      rw [inv.hBA j (by omega) (by omega)]
      exact hBj
    · intro j hj
      have hjn : j < n - 1 := by omega
      have hup := (tcnt_char F n hF hn (dpth + 1) j hjn).2 (by omega)
      rw [inv.hBA j (by omega) (by omega)]
      omega
  have hscanI : scanUsedI A (dpth : Int) root 0 =
      ((Tcnt (depthArr F n) n (dpth + 1) : Int) - 1,
        Tcnt (depthArr F n) n dpth - Tcnt (depthArr F n) n (dpth + 1)) := by
    unfold scanUsedI
    rw [hscan]
    norm_num
  refine ⟨hscanI, ?_⟩
  have hwrite := writeLeaves_run (dpth : Int)
    (avbl - (Tcnt (depthArr F n) n dpth - Tcnt (depthArr F n) n (dpth + 1))) A next
  have hwcast : ((avbl - (Tcnt (depthArr F n) n dpth -
      Tcnt (depthArr F n) n (dpth + 1)) : Nat) : Int) =
      (avbl : Int) - ((Tcnt (depthArr F n) n dpth : Int) -
        (Tcnt (depthArr F n) n (dpth + 1) : Int)) := by omega
  refine ⟨rfl, ?_, ?_, ?_, ?_, ?_, ?_, ?_, ?_⟩
  · -- hnext
    rw [hwrite.1]
    omega
  · -- hnn
    rw [hwrite.1]
    omega
  · -- hBA
    intro j hj0 hj1
    rw [hwrite.2 j, if_neg (by omega)]
    exact inv.hBA j hj0 (by omega)
  · -- hw1
    intro j hj1 hj2
    rw [hwrite.1] at hj1
    rw [hwrite.2 j]
    by_cases hc : next - ((avbl - (Tcnt (depthArr F n) n dpth -
        Tcnt (depthArr F n) n (dpth + 1)) : Nat) : Int) < j ∧ j ≤ next
    · rw [if_pos hc]
      rcases Nat.eq_zero_or_pos dpth with hd0 | hdpos
      · subst hd0
        have hav1 := inv.hd0 rfl
        have hT0 : Tcnt (depthArr F n) n 0 = n - 1 := tcnt_zero F n hF hn
        have hT1 : Tcnt (depthArr F n) n (0 + 1) = n - 2 := tcnt_one F n hF hn
        omega
      · constructor <;> omega
    · rw [if_neg hc]
      have := inv.hw1 j (by omega) hj2
      constructor <;> omega
  · -- hw2
    intro j k hj hk1 hk2
    rw [hwrite.1] at hj
    rw [hwrite.2 j, hwrite.2 k]
    by_cases hcj : next - ((avbl - (Tcnt (depthArr F n) n dpth -
        Tcnt (depthArr F n) n (dpth + 1)) : Nat) : Int) < j ∧ j ≤ next
    · rw [if_pos hcj]
      by_cases hck : next - ((avbl - (Tcnt (depthArr F n) n dpth -
          Tcnt (depthArr F n) n (dpth + 1)) : Nat) : Int) < k ∧ k ≤ next
      · rw [if_pos hck]
      · rw [if_neg hck]
        have := inv.hw1 k (by omega) hk2
        omega
    · rw [if_neg hcj]
      have hjnext : next < j := by omega
      rw [if_neg (by omega)]
      exact inv.hw2 j k hjnext hk1 hk2
  · -- hkraft
    rw [hwrite.1]
    have hz : (2 : ℚ) ^ (-((dpth + 1 : Nat) : Int)) =
        (2 : ℚ) ^ (-((dpth : Nat) : Int)) / 2 := by
      have he : -((dpth + 1 : Nat) : Int) = -((dpth : Nat) : Int) + (-1) := by
        push_cast; ring
      rw [he, zpow_add₀ (two_ne_zero)]
      norm_num
      ring
    have hwq := wsum_write A
      (writeLeaves A (dpth : Int) next
        (avbl - (Tcnt (depthArr F n) n dpth - Tcnt (depthArr F n) n (dpth + 1)))).1
      n
      (next - ((avbl - (Tcnt (depthArr F n) n dpth -
        Tcnt (depthArr F n) n (dpth + 1)) : Nat) : Int))
      next (dpth : Int) (by omega) (by omega) hnn (fun j => hwrite.2 j)
    have hcnt : ((next - (next - ((avbl - (Tcnt (depthArr F n) n dpth -
        Tcnt (depthArr F n) n (dpth + 1)) : Nat) : Int))).toNat : Nat) =
        avbl - (Tcnt (depthArr F n) n dpth - Tcnt (depthArr F n) n (dpth + 1)) := by
      omega
    rw [hcnt] at hwq
    rw [hwq, hz]
    have hkq := inv.hkraft
    have hc1 : ((avbl - (Tcnt (depthArr F n) n dpth -
        Tcnt (depthArr F n) n (dpth + 1)) : Nat) : ℚ) =
        (avbl : ℚ) - ((Tcnt (depthArr F n) n dpth : ℚ) -
          (Tcnt (depthArr F n) n (dpth + 1) : ℚ)) := by
      push_cast [Nat.cast_sub hcle, Nat.cast_sub hanti]
      ring
    have hc2 : ((2 * (Tcnt (depthArr F n) n dpth -
        Tcnt (depthArr F n) n (dpth + 1)) : Nat) : ℚ) =
        2 * ((Tcnt (depthArr F n) n dpth : ℚ) -
          (Tcnt (depthArr F n) n (dpth + 1) : ℚ)) := by
      push_cast [Nat.cast_sub hanti]
      ring
    rw [hc1, hc2]
    linear_combination hkq
  · -- havbl
    have hchain : Tcnt (depthArr F n) n (dpth + 1) -
        Tcnt (depthArr F n) n (dpth + 1 + 1) ≤
        2 * (Tcnt (depthArr F n) n dpth - Tcnt (depthArr F n) n (dpth + 1)) :=
      tcnt_chain F n hF hn dpth
    exact hchain
  · -- hd0
    intro h
    exact absurd h (by omega)

theorem pass3Loop_succ (fuel : Nat) (A : Int → Int) (avbl dpth : Nat)
    (root next : Int) (hav : avbl ≠ 0) :
    pass3Loop (fuel + 1) A avbl dpth root next =
      pass3Loop fuel
        (writeLeaves A (dpth : Int) next (avbl - (scanUsedI A (dpth : Int) root 0).2)).1
        (2 * (scanUsedI A (dpth : Int) root 0).2) (dpth + 1)
        (scanUsedI A (dpth : Int) root 0).1
        (writeLeaves A (dpth : Int) next (avbl - (scanUsedI A (dpth : Int) root 0).2)).2 := by
  rw [pass3Loop, if_neg hav]

/-- When the loop exits (no available slot), every cell holds a final leaf
length and the three result properties hold. -/
theorem inv3_exit (F : Int → Int) (n : Nat) (hF : ValidFreqs F n) (hn : 2 ≤ n)
    (A : Int → Int) (dpth : Nat) (root next : Int)
    (inv : Inv3 n (depthArr F n) A 0 dpth root next) : ResultP n A := by
  have hanti := tcnt_anti (depthArr F n) n dpth
  have h1 := inv.havbl
  have hT : Tcnt (depthArr F n) n dpth = 0 :=
    tcnt_zero_prop F n hF hn n dpth (by omega) (by omega)
  have hroot := inv.hroot
  have hnext := inv.hnext
  have hnx : next = -1 := by omega
  refine ⟨?_, ?_, ?_⟩
  · intro j hj
    exact (inv.hw1 j (by omega) (by omega)).1
  · intro j k hjk hkn
    exact inv.hw2 j k (by omega) (by exact_mod_cast hjk) (by omega)
  · have hk := inv.hkraft
    rw [hnx] at hk
    simpa using hk

theorem pass3_run (F : Int → Int) (n : Nat) (hF : ValidFreqs F n) (hn : 2 ≤ n) :
    ∀ (k : Nat) (A : Int → Int) (avbl dpth : Nat) (root next : Int),
      Inv3 n (depthArr F n) A avbl dpth root next →
      (Tcnt (depthArr F n) n dpth + 1 ≤ k ∨ avbl = 0) →
      (∀ extra : Nat, pass3Loop (k + extra) A avbl dpth root next =
        pass3Loop k A avbl dpth root next) ∧
      ResultP n (pass3Loop k A avbl dpth root next) := by
  intro k
  induction k with
  | zero =>
    intro A avbl dpth root next inv hk
    have hav : avbl = 0 := by omega
    subst hav
    constructor
    · intro extra
      rw [pass3Loop_zero_avbl, pass3Loop_zero_avbl]
    · rw [pass3Loop_zero_avbl]
      exact inv3_exit F n hF hn A dpth root next inv
  | succ k ihk =>
    intro A avbl dpth root next inv hk
    rcases Nat.eq_zero_or_pos avbl with hav | hav
    · subst hav
      constructor
      · intro extra
        rw [pass3Loop_zero_avbl, pass3Loop_zero_avbl]
      · rw [pass3Loop_zero_avbl]
        exact inv3_exit F n hF hn A dpth root next inv
    · have hav' : avbl ≠ 0 := by omega
      have hstep := inv3_step F n hF hn A avbl dpth root next inv hav'
      have hunf : ∀ fuel : Nat, pass3Loop (fuel + 1) A avbl dpth root next =
          pass3Loop fuel
            (writeLeaves A (dpth : Int) next
              (avbl - (Tcnt (depthArr F n) n dpth -
                Tcnt (depthArr F n) n (dpth + 1)))).1
            (2 * (Tcnt (depthArr F n) n dpth - Tcnt (depthArr F n) n (dpth + 1)))
            (dpth + 1) ((Tcnt (depthArr F n) n (dpth + 1) : Int) - 1)
            (writeLeaves A (dpth : Int) next
              (avbl - (Tcnt (depthArr F n) n dpth -
                Tcnt (depthArr F n) n (dpth + 1)))).2 := by
        intro fuel
        rw [pass3Loop_succ fuel A avbl dpth root next hav', hstep.1]
      have hnewhyp : Tcnt (depthArr F n) n (dpth + 1) + 1 ≤ k ∨
          2 * (Tcnt (depthArr F n) n dpth - Tcnt (depthArr F n) n (dpth + 1)) = 0 := by
        rcases Nat.eq_zero_or_pos
          (Tcnt (depthArr F n) n dpth - Tcnt (depthArr F n) n (dpth + 1)) with hc | hc
        · right; omega
        · left
          have hanti := tcnt_anti (depthArr F n) n dpth
          omega
      have ih := ihk _ _ _ _ _ hstep.2 hnewhyp
      constructor
      · intro extra
        calc pass3Loop (k + 1 + extra) A avbl dpth root next
            = pass3Loop (k + extra + 1) A avbl dpth root next := by
              rw [show k + 1 + extra = k + extra + 1 from by ring]
          _ = _ := hunf (k + extra)
          _ = _ := ih.1 extra
          _ = pass3Loop (k + 1) A avbl dpth root next := (hunf k).symm
      · rw [hunf k]
        exact ih.2

/-- The invariant at the start of pass 3. -/
theorem inv3_init (F : Int → Int) (n : Nat) (hF : ValidFreqs F n) (hn : 2 ≤ n) :
    Inv3 n (depthArr F n) (depthArr F n) 1 0 ((n : Int) - 2) ((n : Int) - 1) := by
  have hT0 := tcnt_zero F n hF hn
  have hT1 : Tcnt (depthArr F n) n (0 + 1) = n - 2 := tcnt_one F n hF hn
  refine ⟨by omega, by omega, by omega, fun j _ _ => rfl, ?_, ?_, ?_, by omega,
    fun _ => rfl⟩
  · intro j hj1 hj2
    omega
  · intro j k hj hk1 hk2
    omega
  · rw [wsum_empty _ _ _ (le_refl _)]
    norm_num

/-- For `n ≥ 2` the calculator is pass 3 run with fuel `n` on the pass-2
array. -/
theorem cmr_eq_pass3 (F : Int → Int) (n : Nat) (hn : 2 ≤ n) :
    calculate_minimum_redundancy F n =
      pass3Loop n (depthArr F n) 1 0 ((n : Int) - 2) ((n : Int) - 1) := by
  unfold calculate_minimum_redundancy
  rw [if_neg (by omega), if_neg (by omega)]
  rfl

theorem result_props (F : Int → Int) (n : Nat) (hF : ValidFreqs F n) (hn : 2 ≤ n) :
    ResultP n (calculate_minimum_redundancy F n) := by
  rw [cmr_eq_pass3 F n hn]
  have h := pass3_run F n hF hn n (depthArr F n) 1 0 ((n : Int) - 2) ((n : Int) - 1)
    (inv3_init F n hF hn) (Or.inl (by rw [tcnt_zero F n hF hn]; omega))
  exact h.2

/-! ### Claim theorems: boundary cases and driver behaviour -/

/-- C6: on `n = 0` the calculator returns the buffer untouched (empty output
at the list level), and on `n = 1` it returns the single length `0`. -/
theorem C6_boundary_cases :
    (∀ F : Int → Int, calculate_minimum_redundancy F 0 = F) ∧
    listCMR [] = [] ∧
    (∀ F : Int → Int, calculate_minimum_redundancy F 1 = upd F 0 0) ∧
    (∀ x : Int, listCMR [x] = [0]) := by
  exact ⟨fun F => rfl, rfl, fun F => rfl, fun x => rfl⟩

/-- C7: whenever the values actually read contain a negative frequency or an
inversion, the program exits with status 1, writes a diagnostic to the error
stream, produces no output, and never invokes the length calculator. -/
theorem C7_invalid_input_aborts (n : Int) (stream : List Int)
    (hbad : (∃ x ∈ stream.take n.toNat, x < 0) ∨
      (∃ i j : Nat, i < j ∧ j < (stream.take n.toNat).length ∧
        (stream.take n.toNat).getD j 0 < (stream.take n.toNat).getD i 0)) :
    (mainModel n stream).exitCode = 1 ∧
    (mainModel n stream).stdout = [] ∧
    (mainModel n stream).stderr ≠ [] ∧
    (mainModel n stream).calcCalls = [] := by
  by_cases hn : n ≤ 0 ∨ LIMIT < n
  · simp [mainModel, hn]
  · have hko : freqsOK (stream.take n.toNat) = false := by
      by_contra hok
      have hok' : freqsOK (stream.take n.toNat) = true := by
        cases h : freqsOK (stream.take n.toNat)
        · exact absurd h hok
        · rfl
      obtain ⟨hnn, hmono⟩ := freqsOK_sound _ hok'
      rcases hbad with ⟨x, hx, hxneg⟩ | ⟨i, j, hij, hj, hlt⟩
      · exact absurd (hnn x hx) (by omega)
      · exact absurd (hmono i j (le_of_lt hij) hj) (by omega)
    simp [mainModel, hn, hko]

/-- C8 (amended): if the stream supplies only `k` values with `1 ≤ k < n`, the
run is identical to one that declared `k` from the start. -/
theorem C8_truncation (n : Int) (stream : List Int)
    (h2 : n ≤ LIMIT) (h3 : (stream.length : Int) < n) (h4 : stream ≠ []) :
    mainModel n stream = mainModel (stream.length : Int) stream := by
  have hlen : 0 < stream.length := List.length_pos.mpr h4
  have hn0 : 0 < n := by omega
  have hnn : ¬(n ≤ 0 ∨ LIMIT < n) := by omega
  have hkk : ¬((stream.length : Int) ≤ 0 ∨ LIMIT < (stream.length : Int)) := by
    simp only [LIMIT] at h2 ⊢
    omega
  have ht1 : stream.take n.toNat = stream :=
    List.take_of_length_le (by omega)
  have ht2 : stream.take ((stream.length : Int)).toNat = stream :=
    List.take_of_length_le (by simp)
  simp only [mainModel, if_neg hnn, if_neg hkk, ht1, ht2]

/-- C8 counterexample: with a declared count of 5 and an empty stream the
program reports a zero total, whereas declaring 0 reports an invalid count, so
the truncated run is not identical to declaring the truncated count. -/
theorem C8_zero_read_counterexample :
    mainModel 5 [] ≠ mainModel 0 [] := by decide

theorem C7_invalid_input_aborts_witness :
    ((∃ x ∈ ([5, 3, 7] : List Int).take (3 : Int).toNat, x < 0) ∨
      (∃ i j : Nat, i < j ∧ j < (([5, 3, 7] : List Int).take (3 : Int).toNat).length ∧
        (([5, 3, 7] : List Int).take (3 : Int).toNat).getD j 0 <
          (([5, 3, 7] : List Int).take (3 : Int).toNat).getD i 0)) ∧
    ((mainModel 3 [5, 3, 7]).exitCode = 1 ∧
      (mainModel 3 [5, 3, 7]).stdout = [] ∧
      (mainModel 3 [5, 3, 7]).stderr ≠ [] ∧
      (mainModel 3 [5, 3, 7]).calcCalls = []) :=
  ⟨Or.inr ⟨0, 1, by decide⟩, C7_invalid_input_aborts 3 [5, 3, 7] (Or.inr ⟨0, 1, by decide⟩)⟩

/-- C1: for every valid input with `n ≥ 2` the computed codeword lengths
satisfy Kraft equality: the lengths' Kraft sum `Σ 2 ^ (-length_i)` is
exactly 1. -/
theorem C1_kraft_equality (F : Int → Int) (n : Nat) (hF : ValidFreqs F n)
    (hn : 2 ≤ n) :
    ∑ j in Finset.range n,
      (2 : ℚ) ^ (-(calculate_minimum_redundancy F n (j : Int))) = 1 := by
  have h := (result_props F n hF hn).2.2
  rw [wsum_all] at h
  exact h

theorem C1_kraft_equality_witness :
    (ValidFreqs (fun _ => (1 : Int)) 4 ∧ 2 ≤ 4) ∧
    ∑ j in Finset.range 4,
      (2 : ℚ) ^ (-(calculate_minimum_redundancy (fun _ => (1 : Int)) 4 (j : Int))) = 1 :=
  ⟨⟨⟨fun _ _ => by norm_num, fun _ _ => le_rfl⟩, by norm_num⟩,
    C1_kraft_equality (fun _ => (1 : Int)) 4
      ⟨fun _ _ => by norm_num, fun _ _ => le_rfl⟩ (by norm_num)⟩

/-- C2: for every valid input with `n ≥ 2` the computed lengths are
non-increasing in the slot index: `i ≤ j` implies `length_i ≥ length_j`. -/
theorem C2_lengths_nonincreasing (F : Int → Int) (n : Nat) (hF : ValidFreqs F n)
    (hn : 2 ≤ n) :
    ∀ i j : Nat, i ≤ j → j < n →
      calculate_minimum_redundancy F n (j : Int) ≤
        calculate_minimum_redundancy F n (i : Int) := by
  intro i j hij hj
  exact (result_props F n hF hn).2.1 i j hij hj

theorem C2_lengths_nonincreasing_witness :
    (ValidFreqs (fun _ => (1 : Int)) 4 ∧ 2 ≤ 4) ∧
    (∀ i j : Nat, i ≤ j → j < 4 →
      calculate_minimum_redundancy (fun _ => (1 : Int)) 4 (j : Int) ≤
        calculate_minimum_redundancy (fun _ => (1 : Int)) 4 (i : Int)) :=
  ⟨⟨⟨fun _ _ => by norm_num, fun _ _ => le_rfl⟩, by norm_num⟩,
    C2_lengths_nonincreasing (fun _ => (1 : Int)) 4
      ⟨fun _ _ => by norm_num, fun _ _ => le_rfl⟩ (by norm_num)⟩

/-- C9: for every valid input with `n ≥ 2` every computed length is at
least 1. -/
theorem C9_lengths_positive (F : Int → Int) (n : Nat) (hF : ValidFreqs F n)
    (hn : 2 ≤ n) :
    ∀ j : Nat, j < n → 1 ≤ calculate_minimum_redundancy F n (j : Int) := by
  intro j hj
  exact (result_props F n hF hn).1 j hj

theorem C9_lengths_positive_witness :
    (ValidFreqs (fun _ => (1 : Int)) 4 ∧ 2 ≤ 4) ∧
    (∀ j : Nat, j < 4 →
      1 ≤ calculate_minimum_redundancy (fun _ => (1 : Int)) 4 (j : Int)) :=
  ⟨⟨⟨fun _ _ => by norm_num, fun _ _ => le_rfl⟩, by norm_num⟩,
    C9_lengths_positive (fun _ => (1 : Int)) 4
      ⟨fun _ _ => by norm_num, fun _ _ => le_rfl⟩ (by norm_num)⟩

/-- C5: on every valid input the pass-3 loop needs at most `n` rounds: the
calculator runs it with fuel `n`, and any larger fuel yields the same
array, i.e. the loop has already exited. -/
theorem C5_pass3_terminates (F : Int → Int) (n : Nat) (hF : ValidFreqs F n)
    (hn : 2 ≤ n) :
    ∀ extra : Nat,
      pass3Loop (n + extra) (depthArr F n) 1 0 ((n : Int) - 2) ((n : Int) - 1) =
        calculate_minimum_redundancy F n := by
  intro extra
  rw [cmr_eq_pass3 F n hn]
  exact (pass3_run F n hF hn n (depthArr F n) 1 0 ((n : Int) - 2) ((n : Int) - 1)
    (inv3_init F n hF hn) (Or.inl (by rw [tcnt_zero F n hF hn]; omega))).1 extra

theorem C5_pass3_terminates_witness :
    (ValidFreqs (fun _ => (1 : Int)) 4 ∧ 2 ≤ 4) ∧
    (∀ extra : Nat,
      pass3Loop (4 + extra) (depthArr (fun _ => (1 : Int)) 4) 1 0
        ((4 : Int) - 2) ((4 : Int) - 1) =
      calculate_minimum_redundancy (fun _ => (1 : Int)) 4) :=
  ⟨⟨⟨fun _ _ => by norm_num, fun _ _ => le_rfl⟩, by norm_num⟩,
    C5_pass3_terminates (fun _ => (1 : Int)) 4
      ⟨fun _ _ => by norm_num, fun _ _ => le_rfl⟩ (by norm_num)⟩

/-- C4: after pass 1, every slot `0 … n-3` holds a parent pointer that is
strictly greater than its own index and at most `n-2`; hence the backward
scan of pass 2, which processes `next = n-3, …, 0` after setting slot `n-2`
to depth 0, only ever dereferences a slot strictly above the current one and
within bounds, i.e. one whose depth is already computed. -/
theorem C4_parent_pointers (F : Int → Int) (n : Nat) (hF : ValidFreqs F n)
    (hn : 2 ≤ n) :
    ∀ j : Nat, j < n - 2 →
      (j : Int) < (p1state F n (n - 2)).A j ∧
      (p1state F n (n - 2)).A j ≤ (n : Int) - 2 := by
  intro j hj
  have inv := inv1_all F n hF hn (n - 2) (le_refl _)
  have hr := (pass1_final F n hF hn).1
  have hp := inv.hptr j (by omega)
  constructor
  · exact hp.1
  · have := hp.2
    omega

theorem C4_parent_pointers_witness :
    (ValidFreqs (fun _ => 1) 4 ∧ 2 ≤ 4) ∧
    (∀ j : Nat, j < 4 - 2 →
      (j : Int) < (p1state (fun _ => 1) 4 (4 - 2)).A j ∧
      (p1state (fun _ => 1) 4 (4 - 2)).A j ≤ (4 : Int) - 2) :=
  ⟨⟨⟨fun _ _ => by norm_num, fun _ _ => le_rfl⟩, by norm_num⟩,
    C4_parent_pointers (fun _ => 1) 4 ⟨fun _ _ => by norm_num, fun _ _ => le_rfl⟩
      (by norm_num)⟩

/-- C10: the first combined weight is `F 0 + F 1`, and the weights of the
internal nodes created by pass 1 form a non-decreasing sequence. -/
theorem C10_weights_nondecreasing (F : Int → Int) (n : Nat) (hF : ValidFreqs F n)
    (hn : 2 ≤ n) :
    Wgt F n 0 = F 0 + F 1 ∧
    (∀ m : Nat, m + 1 ≤ n - 2 → Wgt F n m ≤ Wgt F n (m + 1)) := by
  constructor
  · show (p1init F).A 0 = F 0 + F 1
    simp [p1init]
  · intro m hm
    exact (inv1_all F n hF hn (m + 1) (by omega)).hwmono m (by omega)

theorem C10_weights_nondecreasing_witness :
    (ValidFreqs (fun _ => 1) 4 ∧ 2 ≤ 4) ∧
    (Wgt (fun _ => 1) 4 0 = 1 + 1 ∧
      (∀ m : Nat, m + 1 ≤ 4 - 2 → Wgt (fun _ => 1) 4 m ≤ Wgt (fun _ => 1) 4 (m + 1))) :=
  ⟨⟨⟨fun _ _ => by norm_num, fun _ _ => le_rfl⟩, by norm_num⟩,
    C10_weights_nondecreasing (fun _ => 1) 4 ⟨fun _ _ => by norm_num, fun _ _ => le_rfl⟩
      (by norm_num)⟩

/-- C3: selection discipline of pass 1 at every iteration `next = m + 1`.
At the first selection the internal queue is never empty; a present leaf is
compared by value, the root winning exactly on strict inequality (ties go to
the leaf), and an exhausted leaf queue forces the root.  At the second
selection an exhausted internal queue forces the (then present) leaf, an
exhausted leaf queue forces the (then present) root, and when both are
present the root again wins exactly on strict inequality. -/
theorem C3_selection_rule (F : Int → Int) (n : Nat) (hF : ValidFreqs F n)
    (m : Nat) (hm : m + 3 ≤ n)
    (s t u : P1) (hsdef : s = p1state F n m) (htdef : t = sel1 n s (m + 1))
    (hudef : u = sel2 n t (m + 1)) :
    (s.root < m + 1 ∧
      (n ≤ s.leaf → t.root = s.root + 1) ∧
      (s.leaf < n → ((t.root = s.root + 1) ↔ s.A s.root < s.A s.leaf)) ∧
      (s.leaf < n → ((t.leaf = s.leaf + 1) ↔ s.A s.leaf ≤ s.A s.root))) ∧
    ((t.root = m + 1 → t.leaf < n ∧ u.leaf = t.leaf + 1) ∧
      (n ≤ t.leaf → t.root < m + 1 ∧ u.root = t.root + 1) ∧
      (t.root < m + 1 → t.leaf < n →
        ((u.root = t.root + 1) ↔ t.A t.root < t.A t.leaf) ∧
        ((u.leaf = t.leaf + 1) ↔ t.A t.leaf ≤ t.A t.root))) := by
  subst hsdef htdef hudef
  have inv := inv1_all F n hF (by omega) m (by omega)
  have mid := mid1_of_inv1 F n m hF hm inv
  set s := p1state F n m with hs
  set t := sel1 n s (m + 1) with htdef
  have hroot := inv.hroot
  have htrl := mid.hrl
  have htroot := mid.hroot
  constructor
  · refine ⟨by omega, ?_, ?_, ?_⟩
    · intro hle
      rw [htdef, sel1, if_pos (Or.inl hle)]
    · intro hlt
      constructor
      · intro hr
        by_contra hcmp
        push_neg at hcmp
        have : t.root = s.root := by
          rw [htdef, sel1, if_neg ?_]
          push_neg
          exact ⟨by omega, hcmp⟩
        omega
      · intro hcmp
        rw [htdef, sel1, if_pos (Or.inr hcmp)]
    · intro hlt
      constructor
      · intro hr
        by_contra hcmp
        push_neg at hcmp
        have : t.leaf = s.leaf := by
          rw [htdef, sel1, if_pos (Or.inr hcmp)]
        omega
      · intro hcmp
        rw [htdef, sel1, if_neg ?_]
        push_neg
        exact ⟨by omega, hcmp⟩
  · refine ⟨?_, ?_, ?_⟩
    · intro hre
      have hlf : t.leaf < n := by omega
      refine ⟨hlf, ?_⟩
      rw [sel2, if_neg ?_]
      push_neg
      exact ⟨hlf, fun h => absurd h (by omega)⟩
    · intro hle
      have htm : t.root ≤ m := by omega
      refine ⟨by omega, ?_⟩
      rw [sel2, if_pos (Or.inl hle)]
    · intro hra hlf
      constructor
      · constructor
        · intro hr
          by_contra hcmp
          push_neg at hcmp
          have : (sel2 n t (m + 1)).root = t.root := by
            rw [sel2, if_neg ?_]
            push_neg
            exact ⟨by omega, fun _ => hcmp⟩
          omega
        · intro hcmp
          rw [sel2, if_pos (Or.inr ⟨hra, hcmp⟩)]
      · constructor
        · intro hr
          by_contra hcmp
          push_neg at hcmp
          have : (sel2 n t (m + 1)).leaf = t.leaf := by
            rw [sel2, if_pos (Or.inr ⟨hra, hcmp⟩)]
          omega
        · intro hcmp
          rw [sel2, if_neg ?_]
          push_neg
          exact ⟨by omega, fun _ => by omega⟩

theorem C3_selection_rule_witness :
    (ValidFreqs (fun _ => (1 : Int)) 4 ∧ 0 + 3 ≤ 4 ∧
      p1state (fun _ => (1 : Int)) 4 0 = p1state (fun _ => (1 : Int)) 4 0 ∧
      sel1 4 (p1state (fun _ => (1 : Int)) 4 0) (0 + 1) =
        sel1 4 (p1state (fun _ => (1 : Int)) 4 0) (0 + 1) ∧
      sel2 4 (sel1 4 (p1state (fun _ => (1 : Int)) 4 0) (0 + 1)) (0 + 1) =
        sel2 4 (sel1 4 (p1state (fun _ => (1 : Int)) 4 0) (0 + 1)) (0 + 1)) ∧
    (((p1state (fun _ => (1 : Int)) 4 0).root < 0 + 1 ∧
      (4 ≤ (p1state (fun _ => (1 : Int)) 4 0).leaf →
        (sel1 4 (p1state (fun _ => (1 : Int)) 4 0) (0 + 1)).root =
          (p1state (fun _ => (1 : Int)) 4 0).root + 1) ∧
      ((p1state (fun _ => (1 : Int)) 4 0).leaf < 4 →
        (((sel1 4 (p1state (fun _ => (1 : Int)) 4 0) (0 + 1)).root =
            (p1state (fun _ => (1 : Int)) 4 0).root + 1) ↔
          (p1state (fun _ => (1 : Int)) 4 0).A (p1state (fun _ => (1 : Int)) 4 0).root <
            (p1state (fun _ => (1 : Int)) 4 0).A (p1state (fun _ => (1 : Int)) 4 0).leaf)) ∧
      ((p1state (fun _ => (1 : Int)) 4 0).leaf < 4 →
        (((sel1 4 (p1state (fun _ => (1 : Int)) 4 0) (0 + 1)).leaf =
            (p1state (fun _ => (1 : Int)) 4 0).leaf + 1) ↔
          (p1state (fun _ => (1 : Int)) 4 0).A (p1state (fun _ => (1 : Int)) 4 0).leaf ≤
            (p1state (fun _ => (1 : Int)) 4 0).A (p1state (fun _ => (1 : Int)) 4 0).root))) ∧
    (((sel1 4 (p1state (fun _ => (1 : Int)) 4 0) (0 + 1)).root = 0 + 1 →
        (sel1 4 (p1state (fun _ => (1 : Int)) 4 0) (0 + 1)).leaf < 4 ∧
        (sel2 4 (sel1 4 (p1state (fun _ => (1 : Int)) 4 0) (0 + 1)) (0 + 1)).leaf =
          (sel1 4 (p1state (fun _ => (1 : Int)) 4 0) (0 + 1)).leaf + 1) ∧
      (4 ≤ (sel1 4 (p1state (fun _ => (1 : Int)) 4 0) (0 + 1)).leaf →
        (sel1 4 (p1state (fun _ => (1 : Int)) 4 0) (0 + 1)).root < 0 + 1 ∧
        (sel2 4 (sel1 4 (p1state (fun _ => (1 : Int)) 4 0) (0 + 1)) (0 + 1)).root =
          (sel1 4 (p1state (fun _ => (1 : Int)) 4 0) (0 + 1)).root + 1) ∧
      ((sel1 4 (p1state (fun _ => (1 : Int)) 4 0) (0 + 1)).root < 0 + 1 →
        (sel1 4 (p1state (fun _ => (1 : Int)) 4 0) (0 + 1)).leaf < 4 →
        (((sel2 4 (sel1 4 (p1state (fun _ => (1 : Int)) 4 0) (0 + 1)) (0 + 1)).root =
            (sel1 4 (p1state (fun _ => (1 : Int)) 4 0) (0 + 1)).root + 1) ↔
          (sel1 4 (p1state (fun _ => (1 : Int)) 4 0) (0 + 1)).A
              (sel1 4 (p1state (fun _ => (1 : Int)) 4 0) (0 + 1)).root <
            (sel1 4 (p1state (fun _ => (1 : Int)) 4 0) (0 + 1)).A
              (sel1 4 (p1state (fun _ => (1 : Int)) 4 0) (0 + 1)).leaf) ∧
        (((sel2 4 (sel1 4 (p1state (fun _ => (1 : Int)) 4 0) (0 + 1)) (0 + 1)).leaf =
            (sel1 4 (p1state (fun _ => (1 : Int)) 4 0) (0 + 1)).leaf + 1) ↔
          (sel1 4 (p1state (fun _ => (1 : Int)) 4 0) (0 + 1)).A
              (sel1 4 (p1state (fun _ => (1 : Int)) 4 0) (0 + 1)).leaf ≤
            (sel1 4 (p1state (fun _ => (1 : Int)) 4 0) (0 + 1)).A
              (sel1 4 (p1state (fun _ => (1 : Int)) 4 0) (0 + 1)).root)))) :=
  ⟨⟨⟨fun _ _ => by norm_num, fun _ _ => le_rfl⟩, by norm_num, rfl, rfl, rfl⟩,
    C3_selection_rule (fun _ => (1 : Int)) 4
      ⟨fun _ _ => by norm_num, fun _ _ => le_rfl⟩ 0 (by norm_num)
      (p1state (fun _ => (1 : Int)) 4 0)
      (sel1 4 (p1state (fun _ => (1 : Int)) 4 0) (0 + 1))
      (sel2 4 (sel1 4 (p1state (fun _ => (1 : Int)) 4 0) (0 + 1)) (0 + 1))
      rfl rfl rfl⟩

theorem C8_truncation_witness :
    ((5 : Int) ≤ LIMIT ∧ ((([1, 2] : List Int).length : Int) < 5) ∧
      ([1, 2] : List Int) ≠ []) ∧
    mainModel 5 [1, 2] = mainModel (([1, 2] : List Int).length : Int) [1, 2] :=
  ⟨⟨by decide, by decide, by decide⟩,
    C8_truncation 5 [1, 2] (by decide) (by decide) (by decide)⟩

end Inplace
